import Mathlib

/-!
# Verification of the ThorVG LZW codec and Base64 decoder

Shallow embedding of `src/common/tvgCompressor.cpp` (namespace `tvg`):
the LZW `Dictionary`, `BitStreamWriter`, `BitStreamReader`, `lzwEncode`,
`lzwDecode`, and `b64Decode`, together with proofs of the specified
properties.

Modelling conventions:
* C `int` values that can hold the sentinel `Nil = -1` are modelled as `Int`;
  values that are always non-negative (sizes, widths, bit positions) as `Nat`.
* Heap buffers are modelled as functions `Nat → Nat` (byte index to byte
  value).  `malloc`+`memset 0` zero-initialises the writer's buffer, so the
  writer's growable allocation is modelled by the everywhere-zero initial
  function; the `allocate`/`granularity` machinery only changes capacity,
  which is not observable in the byte contents.
* The 4096-entry dictionary array is modelled as a function `Nat → Entry`.
  In the C++ code entries `256..4095` start uninitialised and are never read
  before being written by `add` on any non-corrupt stream; the model gives
  them the fixed junk value `⟨Nil, 0⟩`.
* The decoder's `while` loop is expressed with an explicit fuel parameter;
  `lzwDecode` passes fuel `compressedSizeBits + 1`, which is enough because
  every iteration consumes at least one bit of the stream (code widths are
  always ≥ 9).
* `outputSequence`'s fixed 4096-byte scratch array is modelled by walking
  the parent chain with fuel `MaxDictEntries`; exhausting the fuel
  corresponds to overrunning the scratch buffer (undefined behaviour in the
  C++ code, proved unreachable for well-formed dictionaries).
* The decoder writes into a `malloc`ed buffer of `uncompressedSizeBytes`
  bytes and returns the pointer; the model returns the list of bytes
  actually written (length `bytesDecoded`), the rest of the C buffer being
  uninitialised.
-/

namespace tvg

/-! ## Constants -/

def Nil : Int := -1

def MaxDictBits : Nat := 12

def StartBits : Nat := 9

/-- `1 << (StartBits - 1)` = 256 -/
def FirstCode : Nat := 2 ^ (StartBits - 1)

/-- `1 << MaxDictBits` = 4096 -/
def MaxDictEntries : Nat := 2 ^ MaxDictBits

/-! ## BitStreamWriter -/

structure BitStreamWriter where
  stream : Nat → Nat
  currBytePos : Nat
  nextBitPos : Nat
  numBitsWritten : Nat

namespace BitStreamWriter

/-- Fresh writer: zero-initialised buffer, all positions 0
    (`internalInit` + zeroed allocation). -/
def init : BitStreamWriter :=
  { stream := fun _ => 0, currBytePos := 0, nextBitPos := 0, numBitsWritten := 0 }

/-- `appendBit`: set bit `nextBitPos` of byte `currBytePos` to `bit`
    (`(stream[p] & ~mask) | (-bit & mask)` on a byte) and advance. -/
def appendBit (bs : BitStreamWriter) (bit : Nat) : BitStreamWriter :=
  let mask : Nat := 2 ^ bs.nextBitPos
  let newByte : Nat :=
    (bs.stream bs.currBytePos &&& (255 ^^^ mask)) ||| (if bit ≠ 0 then mask else 0)
  let stream' : Nat → Nat := fun j => if j = bs.currBytePos then newByte else bs.stream j
  if bs.nextBitPos + 1 = 8 then
    { stream := stream', currBytePos := bs.currBytePos + 1, nextBitPos := 0,
      numBitsWritten := bs.numBitsWritten + 1 }
  else
    { stream := stream', currBytePos := bs.currBytePos, nextBitPos := bs.nextBitPos + 1,
      numBitsWritten := bs.numBitsWritten + 1 }

/-- Loop body of `appendBitsU64`: for `b` from the current index while
    `b < bitCount`, append bit `!!(num & (1 << b))`.  The loop is phrased
    structurally on the number `remaining = bitCount - b` of iterations
    left. -/
def appendBitsGo (num : Nat) : Nat → Nat → BitStreamWriter → BitStreamWriter
  | 0, _, bs => bs
  | remaining + 1, b, bs =>
    appendBitsGo num remaining (b + 1)
      (bs.appendBit (if num &&& 2 ^ b ≠ 0 then 1 else 0))

/-- `appendBitsU64(num, bitCount)`: append the `bitCount` low-order bits of
    `num`, least-significant first. -/
def appendBitsU64 (bs : BitStreamWriter) (num bitCount : Nat) : BitStreamWriter :=
  appendBitsGo num bitCount 0 bs

/-- `getByteCount`: `ceil(numBitsWritten / 8)`. -/
def getByteCount (bs : BitStreamWriter) : Nat :=
  let usedBytes := bs.numBitsWritten / 8
  let leftovers := bs.numBitsWritten % 8
  if leftovers ≠ 0 then usedBytes + 1 else usedBytes

end BitStreamWriter

/-! ## BitStreamReader -/

structure BitStreamReader where
  stream : Nat → Nat
  sizeInBytes : Nat
  sizeInBits : Nat
  currBytePos : Nat
  nextBitPos : Nat
  numBitsRead : Nat

namespace BitStreamReader

/-- Constructor `BitStreamReader(bitStream, byteCount, bitCount)`:
    positions start at 0. -/
def mk0 (bitStream : Nat → Nat) (byteCount bitCount : Nat) : BitStreamReader :=
  { stream := bitStream, sizeInBytes := byteCount, sizeInBits := bitCount,
    currBytePos := 0, nextBitPos := 0, numBitsRead := 0 }

/-- `readNextBit`: `none` models returning `false` (no mutation);
    `some (bit, r')` models returning `true` with `bitOut = bit`. -/
def readNextBit (r : BitStreamReader) : Option (Nat × BitStreamReader) :=
  if r.numBitsRead ≥ r.sizeInBits then none
  else
    let bit : Nat := if r.stream r.currBytePos &&& 2 ^ r.nextBitPos ≠ 0 then 1 else 0
    if r.nextBitPos + 1 = 8 then
      some (bit, { r with nextBitPos := 0, currBytePos := r.currBytePos + 1,
                          numBitsRead := r.numBitsRead + 1 })
    else
      some (bit, { r with nextBitPos := r.nextBitPos + 1,
                          numBitsRead := r.numBitsRead + 1 })

/-- Loop body of `readBitsU64`: ascending `b`; on a failed `readNextBit`
    the loop breaks and returns the bits collected so far.
    `num = (num & ~mask) | (-bit & mask)` with 64-bit masks. -/
def readBitsGo : Nat → Nat → Nat → BitStreamReader → Nat × BitStreamReader
  | 0, _, num, r => (num, r)
  | remaining + 1, b, num, r =>
    match r.readNextBit with
    | none => (num, r)
    | some (bit, r') =>
      let mask : Nat := 2 ^ b
      readBitsGo remaining (b + 1)
        ((num &&& ((2 ^ 64 - 1) ^^^ mask)) ||| (if bit ≠ 0 then mask else 0)) r'

/-- `readBitsU64(bitCount)`: read up to `bitCount` bits, LSB first. -/
def readBitsU64 (r : BitStreamReader) (bitCount : Nat) : Nat × BitStreamReader :=
  readBitsGo bitCount 0 0 r

/-- `isEndOfStream`. -/
def isEndOfStream (r : BitStreamReader) : Bool :=
  r.numBitsRead ≥ r.sizeInBits

end BitStreamReader

/-! ## Dictionary -/

structure Entry where
  code : Int
  value : Int
deriving DecidableEq

structure Dictionary where
  size : Nat
  entries : Nat → Entry

namespace Dictionary

/-- Constructor: 256 root entries `⟨Nil, i⟩`; entries `≥ 256` are
    uninitialised in the C++ code (modelled as the junk value `⟨Nil, 0⟩`,
    never read on non-corrupt streams). -/
def init : Dictionary :=
  { size := FirstCode,
    entries := fun i => if i < FirstCode then ⟨Nil, Int.ofNat i⟩ else ⟨Nil, 0⟩ }

/-- `entries[code]` for an `int` index greater or equal to zero. -/
def get (d : Dictionary) (code : Int) : Entry := d.entries code.toNat

/-- `findIndex(code, value)`: `value` itself if `code == Nil`, else the
    first `i < size` with `entries[i] == (code, value)`, else `Nil`. -/
def findIndex (d : Dictionary) (code value : Int) : Int :=
  if code = Nil then value
  else
    match (List.range d.size).find?
        (fun i => (d.entries i).code == code && (d.entries i).value == value) with
    | some i => Int.ofNat i
    | none => Nil

/-- `add(code, value)`: append at index `size` unless full.  The C++
    function also returns a `bool` which every caller ignores. -/
def add (d : Dictionary) (code value : Int) : Dictionary :=
  if d.size = MaxDictEntries then d
  else
    { size := d.size + 1,
      entries := fun j => if j = d.size then ⟨code, value⟩ else d.entries j }

/-- `flush(codeBitsWidth)`: returns `(didReset, newWidth, newDict)`.
    Grows the width when `size == 2^width`; resets (size back to 256,
    width back to 9) when the grown width would exceed `MaxDictBits`. -/
def flush (d : Dictionary) (codeBitsWidth : Nat) : Bool × Nat × Dictionary :=
  if d.size = 2 ^ codeBitsWidth then
    if codeBitsWidth + 1 > MaxDictBits then
      (true, StartBits, { d with size := FirstCode })
    else (false, codeBitsWidth + 1, d)
  else (false, codeBitsWidth, d)

end Dictionary

/-! ## Decoder helpers -/

/-- `outputByte(code, output, outputSizeBytes, bytesDecodedSoFar)`:
    `bytesDecodedSoFar` always equals the number of bytes written, so the
    output pointer/counter pair is modelled as the list of written bytes.
    `none` models returning `false` (capacity reached, no write);
    the written byte is `static_cast<uint8_t>(code)`. -/
def outputByte (code : Int) (out : List Nat) (outputSizeBytes : Nat) : Option (List Nat) :=
  if out.length ≥ outputSizeBytes then none
  else some (out ++ [(code % 256).toNat])

/-- The do-while chain walk of `outputSequence`: values collected into the
    `uint8_t sequence[MaxDictEntries]` scratch array, in collection order
    (from `code` up the parent chain).  Fuel models the scratch capacity:
    running out of fuel corresponds to overrunning the 4096-byte buffer. -/
def collectSequence (d : Dictionary) : Nat → Int → List Int
  | 0, _ => []
  | fuel + 1, code =>
    let e := d.get code
    (e.value % 256) ::
      (if e.code ≥ 0 then collectSequence d fuel e.code else [])

/-- The reversed-output loop of `outputSequence`: write the values one by
    one, stopping (with `false`) when `outputByte` fails. -/
def outputBytes (vals : List Int) (out : List Nat) (cap : Nat) : Bool × List Nat :=
  match vals with
  | [] => (true, out)
  | v :: rest =>
    match outputByte v out cap with
    | none => (false, out)
    | some out' => outputBytes rest out' cap

/-- `outputSequence(dict, code, output, outputSizeBytes, bytesDecodedSoFar,
    firstByte)`: returns `(ok, newOutput, firstByte)`.  `firstByte` is set
    (to the root value of the chain, `sequence[i-1]`) before any byte is
    written, matching the C++ reference-parameter update order. -/
def outputSequence (d : Dictionary) (code : Int) (out : List Nat) (cap : Nat) :
    Bool × List Nat × Int :=
  let seq := collectSequence d MaxDictEntries code
  let firstByte := seq.getLastD 0
  let r := outputBytes seq.reverse out cap
  (r.1, r.2, firstByte)

/-! ## lzwDecode -/

/-- The decode loop.  State: bit reader, dictionary, `prevCode`,
    `firstByte`, `codeBitsWidth`, bytes written so far, output capacity.
    Fuel bounds the iteration count; `lzwDecode` supplies
    `compressedSizeBits + 1`, which is never exhausted since every
    iteration consumes at least one bit. -/
def lzwDecodeLoop :
    Nat → BitStreamReader → Dictionary → Int → Int → Nat → List Nat → Nat → List Nat
  | 0, _, _, _, _, _, out, _ => out
  | fuel + 1, bitStream, dictionary, prevCode, firstByte, codeBitsWidth, out, cap =>
    if bitStream.isEndOfStream then out
    else
      let rd := bitStream.readBitsU64 codeBitsWidth
      let code : Int := Int.ofNat rd.1
      let bitStream' := rd.2
      if prevCode = Nil then
        match outputByte code out cap with
        | none => out
        | some out' =>
          lzwDecodeLoop fuel bitStream' dictionary code code codeBitsWidth out' cap
      else
        let step : Option (List Nat × Int) :=
          if code ≥ (dictionary.size : Int) then
            let r := outputSequence dictionary prevCode out cap
            if r.1 then
              match outputByte r.2.2 r.2.1 cap with
              | none => none
              | some out2 => some (out2, r.2.2)
            else none
          else
            let r := outputSequence dictionary code out cap
            if r.1 then some (r.2.1, r.2.2) else none
        match step with
        | none =>
          -- a `break`: return the bytes written before the failing write
          (if code ≥ (dictionary.size : Int) then
            (outputSequence dictionary prevCode out cap).2.1
          else (outputSequence dictionary code out cap).2.1)
        | some (out', fb) =>
          let dict' := dictionary.add prevCode fb
          let fl := dict'.flush codeBitsWidth
          if fl.1 then
            lzwDecodeLoop fuel bitStream' fl.2.2 Nil fb fl.2.1 out' cap
          else
            lzwDecodeLoop fuel bitStream' fl.2.2 code fb fl.2.1 out' cap

/-- `lzwDecode(compressed, compressedSizeBytes, compressedSizeBits,
    uncompressedSizeBytes)`: returns the written bytes (the C++ function
    returns the malloced buffer whose first `bytesDecoded` bytes these are). -/
def lzwDecode (compressed : Nat → Nat)
    (compressedSizeBytes compressedSizeBits uncompressedSizeBytes : Nat) : List Nat :=
  lzwDecodeLoop (compressedSizeBits + 1)
    (BitStreamReader.mk0 compressed compressedSizeBytes compressedSizeBits)
    Dictionary.init Nil 0 StartBits [] uncompressedSizeBytes

/-! ## lzwEncode -/

/-- The encode loop over the input bytes.  Returns the final
    `(code, codeBitsWidth, dictionary, bitStream)`. -/
def lzwEncodeLoop :
    List Nat → Int → Nat → Dictionary → BitStreamWriter →
      Int × Nat × Dictionary × BitStreamWriter
  | [], code, codeBitsWidth, dictionary, bitStream =>
    (code, codeBitsWidth, dictionary, bitStream)
  | value :: rest, code, codeBitsWidth, dictionary, bitStream =>
    let index := dictionary.findIndex code (Int.ofNat value)
    if index ≠ Nil then
      lzwEncodeLoop rest index codeBitsWidth dictionary bitStream
    else
      let bitStream' := bitStream.appendBitsU64 code.toNat codeBitsWidth
      let fl := dictionary.flush codeBitsWidth
      let dictionary' :=
        if fl.1 then fl.2.2 else fl.2.2.add code (Int.ofNat value)
      lzwEncodeLoop rest (Int.ofNat value) fl.2.1 dictionary' bitStream'

/-- `lzwEncode(uncompressed, uncompressedSizeBytes, &compressedSizeBytes,
    &compressedSizeBits)`: returns `(stream, compressedSizeBytes,
    compressedSizeBits)` where `stream` is the released buffer. -/
def lzwEncode (uncompressed : List Nat) : (Nat → Nat) × Nat × Nat :=
  let r := lzwEncodeLoop uncompressed Nil StartBits Dictionary.init BitStreamWriter.init
  let bitStream :=
    if r.1 ≠ Nil then r.2.2.2.appendBitsU64 r.1.toNat r.2.1 else r.2.2.2
  (bitStream.stream, bitStream.getByteCount, bitStream.numBitsWritten)

/-! ## b64Decode -/

/-- The `B64_INDEX[256]` table (zero beyond the 251 listed entries).
    Indexing with a negative `char` is undefined behaviour in the C++
    code; the model is only ever applied to non-negative values in the
    theorems below. -/
def B64_INDEX : Int → Int := fun c =>
  [0,  0,  0,  0,  0,  0,  0,  0,  0,  0,  0,  0,  0,  0,  0,  0,  0,  0,
   0,  0,  0,  0,  0,  0,  0,  0,  0,  0,  0,  0,  0,  0,  0,  0,  0,  0,
   0,  0,  0,  0,  0,  0,  0,  62, 63, 62, 62, 63, 52, 53, 54, 55, 56, 57,
   58, 59, 60, 61, 0,  0,  0,  0,  0,  0,  0,  0,  1,  2,  3,  4,  5,  6,
   7,  8,  9,  10, 11, 12, 13, 14, 15, 16, 17, 18, 19, 20, 21, 22, 23, 24,
   25, 0,  0,  0,  0,  63, 0,  26, 27, 28, 29, 30, 31, 32, 33, 34, 35, 36,
   37, 38, 39, 40, 41, 42, 43, 44, 45, 46, 47, 48, 49, 50, 51].getD c.toNat 0

/-- Reading `encoded[i]` from a NUL-terminated string modelled as the list
    of its (signed `char`) bytes: positions past the end read the
    terminating NUL (and beyond, further zero bytes of the model). -/
def chr (s : List Int) (i : Nat) : Int := s.getD i 0

/-- The `while (*encoded && *(encoded + 1))` loop of `b64Decode`,
    accumulating the decoded bytes in order.  Each iteration either skips
    one leading byte `≤ 0x20` or decodes a group of up to four characters
    (breaking out at a NUL / negative char / `'='` / `'.'` in the third or
    fourth position).  The loop is phrased structurally on a fuel that
    bounds the iteration count; every iteration consumes at least one
    input character, so fuel `encoded.length` is never exhausted before
    the loop condition fails. -/
def b64Go : Nat → List Int → List Int → List Int
  | 0, _, out => out
  | fuel + 1, encoded, out =>
    if chr encoded 0 ≠ 0 ∧ chr encoded 1 ≠ 0 then
      if chr encoded 0 ≤ 0x20 then b64Go fuel (encoded.drop 1) out
      else
        let value1 := B64_INDEX (chr encoded 0)
        let value2 := B64_INDEX (chr encoded 1)
        let out1 := out ++ [(value1 * 4 + (Int.land value2 0x30) / 16) % 256]
        if chr encoded 2 = 0 ∨ chr encoded 3 < 0 ∨ chr encoded 2 = 61 ∨
            chr encoded 2 = 46 then out1
        else
          let value3 := B64_INDEX (chr encoded 2)
          let out2 :=
            out1 ++ [((Int.land value2 0x0f) * 16 + (Int.land value3 0x3c) / 4) % 256]
          if chr encoded 3 = 0 ∨ chr encoded 3 < 0 ∨ chr encoded 3 = 61 ∨
              chr encoded 3 = 46 then out2
          else
            let value4 := B64_INDEX (chr encoded 3)
            b64Go fuel (encoded.drop 4) (out2 ++ [((Int.land value3 0x03) * 64 + value4) % 256])
    else out

/-- `b64Decode(encoded, len, &decoded)`: null pointers are modelled by
    `Option`; returns `(returnValue, bufferWrittenThroughDecoded)`.  The
    allocation itself is assumed to succeed (`malloc` failure is the C++
    `if (!output) return 0` path, outside this model). -/
def b64Decode (encoded : Option (List Int)) (len : Nat) (decodedProvided : Bool) :
    Nat × Option (List Int) :=
  match encoded, decodedProvided with
  | none, _ => (0, none)
  | _, false => (0, none)
  | some s, true =>
    if len = 0 then (0, none)
    else
      let reserved := 3 * (1 + len / 4) + 1
      (reserved, some (b64Go s.length s []))

/-! ## Bit-level specification

`bitOfBuf s p` is bit `p % 8` of byte `p / 8`: the LSB-first,
byte-aligned layout of the packed bit buffer. -/

def bitOfBuf (s : Nat → Nat) (p : Nat) : Bool :=
  Nat.testBit (s (p / 8)) (p % 8)

/-- Well-formed writer states: the position fields are consistent and
    every bit at or beyond `numBitsWritten` is still zero. -/
def WFw (bs : BitStreamWriter) : Prop :=
  bs.nextBitPos < 8 ∧
  bs.numBitsWritten = 8 * bs.currBytePos + bs.nextBitPos ∧
  ∀ p, bs.numBitsWritten ≤ p → bitOfBuf bs.stream p = false

/-- Well-formed reader states: the position fields are consistent. -/
def WFr (r : BitStreamReader) : Prop :=
  r.nextBitPos < 8 ∧ r.numBitsRead = 8 * r.currBytePos + r.nextBitPos

/-- The value of `m` consecutive buffer bits starting at bit `p`,
    least-significant first. -/
def valFromBits (s : Nat → Nat) (p : Nat) : Nat → Nat
  | 0 => 0
  | m + 1 => (if bitOfBuf s p then 1 else 0) + 2 * valFromBits s (p + 1) m

/-- A reader operation: one `readNextBit` call or one `readBitsU64 n` call. -/
inductive ReaderOp where
  | bit : ReaderOp
  | bits : Nat → ReaderOp

/-- Apply one operation to a reader, keeping the resulting state (a failed
    `readNextBit` leaves the reader unchanged, as in the C++ code). -/
def applyOp (r : BitStreamReader) : ReaderOp → BitStreamReader
  | ReaderOp.bit =>
    match r.readNextBit with
    | none => r
    | some (_, r') => r'
  | ReaderOp.bits n => (r.readBitsU64 n).2

/-- Run a sequence of reader operations. -/
def runOps (r : BitStreamReader) (ops : List ReaderOp) : BitStreamReader :=
  ops.foldl applyOp r

/-- The reader invariant preserved by every operation. -/
def ReaderInv (stream : Nat → Nat) (bits : Nat) (r : BitStreamReader) : Prop :=
  r.stream = stream ∧ r.sizeInBits = bits ∧ WFr r ∧ r.numBitsRead ≤ bits

/-- Well-formed dictionaries: the 256 roots are intact and every live
    dynamic entry has a strictly smaller, non-negative parent code and a
    byte-sized value.  This holds for every dictionary the encoder or
    decoder ever builds. -/
def DictWF (d : Dictionary) : Prop :=
  FirstCode ≤ d.size ∧ d.size ≤ MaxDictEntries ∧
  (∀ j, j < FirstCode → d.entries j = ⟨Nil, Int.ofNat j⟩) ∧
  (∀ j, FirstCode ≤ j → j < d.size →
    0 ≤ (d.entries j).code ∧ (d.entries j).code < (j : Int) ∧
    0 ≤ (d.entries j).value ∧ (d.entries j).value < 256)

/-- The byte sequence represented by a code: the scratch-array contents of
    `outputSequence` in forward order. -/
def phrase (d : Dictionary) (c : Int) : List Int :=
  (collectSequence d MaxDictEntries c).reverse

/-- `phrase` as the list of output bytes. -/
def phraseN (d : Dictionary) (c : Int) : List Nat :=
  (phrase d c).map Int.toNat

def decodeStepFull (dictionary : Dictionary) (prevCode : Int) (codeBitsWidth : Nat)
    (out : List Nat) (cap : Nat) (code : Int) :
    Except (List Nat) (Dictionary × Int × Int × Nat × List Nat × (Nat × Nat)) :=
  if prevCode = Nil then
    match outputByte code out cap with
    | none => Except.error out
    | some out' =>
      Except.ok (dictionary, code, code, codeBitsWidth, out',
        (dictionary.size, codeBitsWidth))
  else
    let step : Option (List Nat × Int) :=
      if code ≥ (dictionary.size : Int) then
        let r := outputSequence dictionary prevCode out cap
        if r.1 then
          match outputByte r.2.2 r.2.1 cap with
          | none => none
          | some out2 => some (out2, r.2.2)
        else none
      else
        let r := outputSequence dictionary code out cap
        if r.1 then some (r.2.1, r.2.2) else none
    match step with
    | none =>
      Except.error
        (if code ≥ (dictionary.size : Int) then
          (outputSequence dictionary prevCode out cap).2.1
        else (outputSequence dictionary code out cap).2.1)
    | some (out', fb) =>
      let dict' := dictionary.add prevCode fb
      let fl := dict'.flush codeBitsWidth
      if fl.1 then
        Except.ok (fl.2.2, Nil, fb, fl.2.1, out', (dict'.size, codeBitsWidth))
      else
        Except.ok (fl.2.2, code, fb, fl.2.1, out', (dict'.size, codeBitsWidth))

/-- The bytes `outputSequence` would write with unlimited capacity. -/
def seqBytes (d : Dictionary) (c : Int) : List Nat :=
  ((collectSequence d MaxDictEntries c).reverse).map (fun v => (v % 256).toNat)

/-- The `firstByte` reported by `outputSequence`. -/
def seqFB (d : Dictionary) (c : Int) : Int :=
  (collectSequence d MaxDictEntries c).getLastD 0

/-- Replace a reader's backing stream, keeping all position fields. -/
def setStream (r : BitStreamReader) (s : Nat → Nat) : BitStreamReader :=
  ⟨s, r.sizeInBytes, r.sizeInBits, r.currBytePos, r.nextBitPos, r.numBitsRead⟩

/-- The non-writer components of the encoder loop state. -/
def encSt : List Nat → Int → Nat → Dictionary → Int × Nat × Dictionary
  | [], code, w, d => (code, w, d)
  | v :: rest, code, w, d =>
    let index := d.findIndex code (Int.ofNat v)
    if index ≠ Nil then encSt rest index w d
    else
      let fl := d.flush w
      encSt rest (Int.ofNat v) fl.2.1 (if fl.1 then fl.2.2 else fl.2.2.add code (Int.ofNat v))

/-- The encoder's emissions: one `(code, width, dictionary size)` triple per
    `appendBitsU64` call inside the loop, sampled at the moment of the call. -/
def encEmits : List Nat → Int → Nat → Dictionary → List (Int × Nat × Nat)
  | [], _, _, _ => []
  | v :: rest, code, w, d =>
    let index := d.findIndex code (Int.ofNat v)
    if index ≠ Nil then encEmits rest index w d
    else
      let fl := d.flush w
      (code, w, d.size) ::
        encEmits rest (Int.ofNat v) fl.2.1
          (if fl.1 then fl.2.2 else fl.2.2.add code (Int.ofNat v))

/-- The residual emission after the loop (`if (code != Nil) appendBitsU64`). -/
def encResidual (st : Int × Nat × Dictionary) : List (Int × Nat × Nat) :=
  if st.1 ≠ Nil then [(st.1, st.2.1, st.2.2.size)] else []

/-- All emissions of a full `lzwEncode` run from the given state. -/
def emsOf (input : List Nat) (code : Int) (w : Nat) (d : Dictionary) :
    List (Int × Nat × Nat) :=
  encEmits input code w d ++ encResidual (encSt input code w d)

/-- Code/width projection of an emission list. -/
def emCW (l : List (Int × Nat × Nat)) : List (Int × Nat) :=
  l.map (fun e => (e.1, e.2.1))

/-- Size/width projection of an emission list: the encoder's
    (dictionary size, code width) trajectory. -/
def emSW (l : List (Int × Nat × Nat)) : List (Nat × Nat) :=
  l.map (fun e => (e.2.2, e.2.1))

def widthSum (l : List (Int × Nat)) : Nat := (l.map (fun e => e.2)).sum

/-- Append every emission to a bit stream writer. -/
def appendEmits (bs : BitStreamWriter) : List (Int × Nat) → BitStreamWriter
  | [] => bs
  | e :: rest => appendEmits (bs.appendBitsU64 e.1.toNat e.2) rest

/-- The bits of `s` starting at position `p` spell out the given
    (code, width) list. -/
def EncodesFrom (s : Nat → Nat) : Nat → List (Int × Nat) → Prop
  | _, [] => True
  | p, e :: rest => valFromBits s p e.2 = e.1.toNat ∧ EncodesFrom s (p + e.2) rest

/-- The decode loop instrumented to record, at every successfully decoded
    code, the (dictionary size after the loop body's `add`, code width used
    to read the code) pair of `decodeStepFull`. -/
def lzwDecodeLoopTr :
    Nat → BitStreamReader → Dictionary → Int → Int → Nat → List Nat → Nat →
      List (Nat × Nat) → List Nat × List (Nat × Nat)
  | 0, _, _, _, _, _, out, _, acc => (out, acc)
  | fuel + 1, r, d, prev, fb, w, out, cap, acc =>
    if r.isEndOfStream then (out, acc)
    else
      match decodeStepFull d prev w out cap (Int.ofNat (r.readBitsU64 w).1) with
      | Except.error o => (o, acc)
      | Except.ok (d', p', fb', w', out', rec) =>
        lzwDecodeLoopTr fuel (r.readBitsU64 w).2 d' p' fb' w' out' cap (acc ++ [rec])

/-- The coupled invariant between the encoder state (about to process the
    remaining input) and the decoder state (having consumed all earlier
    emissions).  `done` is the consumed input prefix. -/
def SyncInv (codeE : Int) (w : Nat) (dE dD : Dictionary) (prevD : Int)
    (outD done : List Nat) : Prop :=
  (codeE = Nil ∧ prevD = Nil ∧ dE = Dictionary.init ∧ dD = Dictionary.init ∧
    w = StartBits ∧ outD = [] ∧ done = []) ∨
  (0 ≤ codeE ∧ codeE < 256 ∧ prevD = Nil ∧
    dE.size = 256 ∧ dD.size = 256 ∧ DictWF dE ∧ DictWF dD ∧
    w = StartBits ∧ outD ++ [codeE.toNat] = done) ∨
  (0 ≤ codeE ∧ codeE < (dE.size : Int) ∧ 0 ≤ prevD ∧ prevD < (dD.size : Int) ∧
    DictWF dE ∧ DictWF dD ∧
    dE.size = dD.size + 1 ∧ (∀ i, i < dD.size → dE.entries i = dD.entries i) ∧
    dE.entries dD.size = ⟨prevD, (phrase dE codeE).headD 0⟩ ∧
    9 ≤ w ∧ w ≤ 12 ∧ dE.size ≤ 2 ^ w ∧
    outD ++ phraseN dE codeE = done)

/-- The encoder's (dictionary size, code width) trajectory: one pair per
    emitted code, sampled when the code is appended to the bit stream. -/
def lzwEncodeTrajectory (S : List Nat) : List (Nat × Nat) :=
  emSW (emsOf S Nil StartBits Dictionary.init)

/-- `lzwDecode` instrumented to also return the decoder's (dictionary size
    after `add`, code width) pair trajectory, one pair per decoded code. -/
def lzwDecodeTraced (compressed : Nat → Nat)
    (compressedSizeBytes compressedSizeBits uncompressedSizeBytes : Nat) :
    List Nat × List (Nat × Nat) :=
  lzwDecodeLoopTr (compressedSizeBits + 1)
    (BitStreamReader.mk0 compressed compressedSizeBytes compressedSizeBits)
    Dictionary.init Nil 0 StartBits [] uncompressedSizeBytes []

theorem wfw_init : WFw BitStreamWriter.init := by
  refine ⟨by decide, by decide, fun p _ => ?_⟩
  simp [bitOfBuf, BitStreamWriter.init]

theorem wfr_mk0 (stream : Nat → Nat) (bytes bits : Nat) :
    WFr (BitStreamReader.mk0 stream bytes bits) := by
  constructor <;> simp [BitStreamReader.mk0]

/-- Bits of the byte produced by `appendBit`'s masking expression. -/
theorem testBit_appendByte (old nbp bit i : Nat) (h8 : nbp < 8) (hi : i < 8) :
    Nat.testBit ((old &&& (255 ^^^ 2 ^ nbp)) ||| (if bit ≠ 0 then 2 ^ nbp else 0)) i =
      if i = nbp then (if bit ≠ 0 then true else false) else Nat.testBit old i := by
  rw [Nat.testBit_lor, Nat.testBit_land, Nat.testBit_xor]
  have h255 : Nat.testBit 255 i = true := by
    have he : (255 : Nat) = 2 ^ 8 - 1 := by norm_num
    rw [he, Nat.testBit_two_pow_sub_one]
    simp [hi]
  rw [h255, Nat.testBit_two_pow]
  by_cases hip : i = nbp
  · subst hip
    simp only [if_pos rfl]
    split
    · simp [Nat.testBit_two_pow]
    · simp
  · have hni : ¬ (nbp = i) := fun he => hip he.symm
    simp only [if_neg hip, hni]
    split
    · rw [Nat.testBit_two_pow]
      simp [hni]
    · simp [hni]

namespace BitStreamWriter

theorem appendBit_stream (bs : BitStreamWriter) (bit : Nat) (j : Nat) :
    (bs.appendBit bit).stream j =
      if j = bs.currBytePos then
        (bs.stream bs.currBytePos &&& (255 ^^^ 2 ^ bs.nextBitPos)) |||
          (if bit ≠ 0 then 2 ^ bs.nextBitPos else 0)
      else bs.stream j := by
  unfold appendBit
  by_cases h : bs.nextBitPos + 1 = 8 <;> simp [h]

theorem appendBit_numBitsWritten (bs : BitStreamWriter) (bit : Nat) :
    (bs.appendBit bit).numBitsWritten = bs.numBitsWritten + 1 := by
  unfold appendBit
  by_cases h : bs.nextBitPos + 1 = 8 <;> simp [h]

theorem appendBit_pos (bs : BitStreamWriter) (bit : Nat) (h8 : bs.nextBitPos < 8) :
    8 * (bs.appendBit bit).currBytePos + (bs.appendBit bit).nextBitPos =
        8 * bs.currBytePos + bs.nextBitPos + 1 ∧
      (bs.appendBit bit).nextBitPos < 8 := by
  unfold appendBit
  by_cases h : bs.nextBitPos + 1 = 8 <;> simp [h] <;> omega

theorem bitOfBuf_appendBit {bs : BitStreamWriter} (h : WFw bs) (bit p : Nat) :
    bitOfBuf (bs.appendBit bit).stream p =
      if p = bs.numBitsWritten then (if bit ≠ 0 then true else false)
      else bitOfBuf bs.stream p := by
  obtain ⟨h8, hpos, _⟩ := h
  rw [bitOfBuf, bitOfBuf, appendBit_stream]
  have hdm := Nat.div_add_mod p 8
  have hp8 : p % 8 < 8 := Nat.mod_lt _ (by omega)
  by_cases hbyte : p / 8 = bs.currBytePos
  · rw [hbyte, if_pos rfl]
    rw [testBit_appendByte _ _ _ _ h8 hp8]
    by_cases hpn : p = bs.numBitsWritten
    · subst hpn
      have hm : bs.numBitsWritten % 8 = bs.nextBitPos := by omega
      simp [hm]
    · have hm : ¬ (p % 8 = bs.nextBitPos) := by omega
      simp [hpn, hm]
  · have hne : ¬ (p = bs.numBitsWritten) := by omega
    simp [hbyte, hne]

theorem appendBit_wf {bs : BitStreamWriter} (h : WFw bs) (bit : Nat) :
    WFw (bs.appendBit bit) := by
  have hp := appendBit_pos bs bit h.1
  refine ⟨hp.2, ?_, fun p hp' => ?_⟩
  · rw [appendBit_numBitsWritten, h.2.1]
    omega
  · rw [bitOfBuf_appendBit h]
    rw [appendBit_numBitsWritten] at hp'
    have hne : ¬ (p = bs.numBitsWritten) := by omega
    rw [if_neg hne]
    exact h.2.2 p (by omega)

end BitStreamWriter

theorem lor_two_pow_eq_add {num b : Nat} (h : num < 2 ^ b) :
    num ||| 2 ^ b = num + 2 ^ b := by
  apply Nat.eq_of_testBit_eq
  intro i
  rw [Nat.testBit_lor]
  rcases Nat.lt_trichotomy i b with hi | hi | hi
  · rw [Nat.add_comm, Nat.testBit_two_pow_add_gt hi, Nat.testBit_two_pow]
    simp [Nat.ne_of_gt hi]
  · subst hi
    rw [Nat.add_comm, Nat.testBit_two_pow_add_eq, Nat.testBit_two_pow]
    simp [Nat.testBit_lt_two_pow h]
  · have h1 : num.testBit i = false :=
      Nat.testBit_lt_two_pow (lt_trans h (Nat.pow_lt_pow_right (by norm_num) hi))
    have h2 : (num + 2 ^ b).testBit i = false := by
      apply Nat.testBit_lt_two_pow
      have hle : 2 ^ b + 2 ^ b ≤ 2 ^ i := by
        have := Nat.pow_le_pow_right (show 1 ≤ 2 by norm_num) hi
        simpa [Nat.pow_succ, Nat.mul_two] using this
      omega
    rw [h1, h2, Nat.testBit_two_pow]
    simp
    omega

theorem and_two_pow_ne_zero_iff (num b : Nat) :
    (num &&& 2 ^ b ≠ 0) ↔ num.testBit b = true := by
  rw [Nat.and_two_pow]
  have hp : 0 < 2 ^ b := Nat.pow_pos (by norm_num)
  cases h : num.testBit b
  · simp [h]
  · simp only [h, Bool.toNat_true, Nat.one_mul]
    constructor
    · intro _
      trivial
    · intro _
      omega

namespace BitStreamWriter

theorem appendBitsGo_spec (num : Nat) :
    ∀ (m b : Nat) (bs : BitStreamWriter), WFw bs →
      WFw (appendBitsGo num m b bs) ∧
      (appendBitsGo num m b bs).numBitsWritten = bs.numBitsWritten + m ∧
      (∀ p, p < bs.numBitsWritten →
        bitOfBuf (appendBitsGo num m b bs).stream p = bitOfBuf bs.stream p) ∧
      (∀ k, k < m →
        bitOfBuf (appendBitsGo num m b bs).stream (bs.numBitsWritten + k) =
          num.testBit (b + k)) := by
  intro m
  induction m with
  | zero =>
    intro b bs hwf
    exact ⟨hwf, rfl, fun p _ => rfl, fun k hk => absurd hk (by omega)⟩
  | succ m ih =>
    intro b bs hwf
    rw [appendBitsGo]
    set bit := (if num &&& 2 ^ b ≠ 0 then 1 else 0) with hbit
    have hwf' : WFw (bs.appendBit bit) := appendBit_wf hwf bit
    obtain ⟨ihwf, ihlen, ihpres, ihbits⟩ := ih (b + 1) (bs.appendBit bit) hwf'
    have hnum : (bs.appendBit bit).numBitsWritten = bs.numBitsWritten + 1 :=
      appendBit_numBitsWritten bs bit
    refine ⟨ihwf, by omega, fun p hp => ?_, fun k hk => ?_⟩
    · rw [ihpres p (by omega), bitOfBuf_appendBit hwf]
      rw [if_neg (by omega)]
    · match k with
      | 0 =>
        have h0 : bs.numBitsWritten + 0 < (bs.appendBit bit).numBitsWritten := by omega
        rw [ihpres _ h0, bitOfBuf_appendBit hwf, if_pos (by omega)]
        by_cases hb : num.testBit b = true
        · have : num &&& 2 ^ b ≠ 0 := (and_two_pow_ne_zero_iff num b).mpr hb
          simp [hbit, this, hb]
        · have hb' : num.testBit b = false := by
            cases hx : num.testBit b
            · rfl
            · exact absurd hx hb
          have : ¬ (num &&& 2 ^ b ≠ 0) := fun hc =>
            hb ((and_two_pow_ne_zero_iff num b).mp hc)
          simp [hbit, this, hb']
      | k + 1 =>
        have := ihbits k (by omega)
        rw [hnum] at this
        have harr : bs.numBitsWritten + (k + 1) = bs.numBitsWritten + 1 + k := by omega
        rw [harr, this]
        congr 1
        omega

theorem appendBitsU64_spec {bs : BitStreamWriter} (hwf : WFw bs) (num w : Nat) :
    WFw (bs.appendBitsU64 num w) ∧
    (bs.appendBitsU64 num w).numBitsWritten = bs.numBitsWritten + w ∧
    (∀ p, p < bs.numBitsWritten →
      bitOfBuf (bs.appendBitsU64 num w).stream p = bitOfBuf bs.stream p) ∧
    (∀ k, k < w →
      bitOfBuf (bs.appendBitsU64 num w).stream (bs.numBitsWritten + k) =
        num.testBit k) := by
  have h := appendBitsGo_spec num w 0 bs hwf
  exact ⟨h.1, h.2.1, h.2.2.1, fun k hk => by
    have := h.2.2.2 k hk
    simpa using this⟩

end BitStreamWriter

theorem valFromBits_eq_mod :
    ∀ (m num : Nat) (s : Nat → Nat) (p : Nat),
      (∀ k, k < m → bitOfBuf s (p + k) = num.testBit k) →
      valFromBits s p m = num % 2 ^ m := by
  intro m
  induction m with
  | zero => intro num s p _; simp [valFromBits, Nat.mod_one]
  | succ m ih =>
    intro num s p h
    rw [valFromBits]
    have h0 : bitOfBuf s p = num.testBit 0 := by
      have := h 0 (by omega)
      simpa using this
    have hrest : valFromBits s (p + 1) m = (num / 2) % 2 ^ m := by
      apply ih
      intro k hk
      have := h (k + 1) (by omega)
      rw [show p + (k + 1) = p + 1 + k by omega] at this
      rw [this, Nat.testBit_succ]
    rw [h0, hrest]
    have hb : (if num.testBit 0 = true then 1 else 0) = num % 2 := by
      rw [Nat.testBit_zero]
      rcases Nat.mod_two_eq_zero_or_one num with h2 | h2 <;> simp [h2]
    have key : num % 2 ^ (m + 1) = num % 2 + 2 * (num / 2 % 2 ^ m) := by
      conv_lhs => rw [← Nat.div_add_mod num 2]
      rw [Nat.pow_succ, Nat.mul_comm (2 ^ m) 2]
      rw [Nat.add_comm (2 * (num / 2)) (num % 2), Nat.add_mod,
        Nat.mul_mod_mul_left]
      have hm2 : num % 2 % (2 * 2 ^ m) = num % 2 := by
        apply Nat.mod_eq_of_lt
        have : 0 < 2 ^ m := Nat.pow_pos (by norm_num)
        omega
      rw [hm2]
      apply Nat.mod_eq_of_lt
      have hlt : num / 2 % 2 ^ m < 2 ^ m := Nat.mod_lt _ (Nat.pow_pos (by norm_num))
      have : 0 < 2 ^ m := Nat.pow_pos (by norm_num)
      omega
    simp only [hb]
    omega

namespace BitStreamReader

theorem readNextBit_none {r : BitStreamReader} (h : r.sizeInBits ≤ r.numBitsRead) :
    r.readNextBit = none := by
  unfold readNextBit
  rw [if_pos (by omega)]

theorem readNextBit_spec {r : BitStreamReader} (hwf : WFr r)
    (hlt : r.numBitsRead < r.sizeInBits) :
    ∃ r', r.readNextBit =
        some ((if bitOfBuf r.stream r.numBitsRead then 1 else 0), r') ∧
      r'.stream = r.stream ∧ r'.sizeInBytes = r.sizeInBytes ∧
      r'.sizeInBits = r.sizeInBits ∧ r'.numBitsRead = r.numBitsRead + 1 ∧
      r'.currBytePos = r.currBytePos + (if r.nextBitPos + 1 = 8 then 1 else 0) ∧
      WFr r' := by
  obtain ⟨h8, hpos⟩ := hwf
  have hq : r.numBitsRead / 8 = r.currBytePos := by omega
  have hr : r.numBitsRead % 8 = r.nextBitPos := by omega
  have hbit : (if r.stream r.currBytePos &&& 2 ^ r.nextBitPos ≠ 0 then (1 : Nat) else 0) =
      (if bitOfBuf r.stream r.numBitsRead then 1 else 0) := by
    rw [bitOfBuf, hq, hr]
    by_cases hb : (r.stream r.currBytePos).testBit r.nextBitPos = true
    · rw [if_pos ((and_two_pow_ne_zero_iff _ _).mpr hb), if_pos hb]
    · have hb' : (r.stream r.currBytePos).testBit r.nextBitPos = false := by
        cases hx : (r.stream r.currBytePos).testBit r.nextBitPos
        · rfl
        · exact absurd hx hb
      rw [if_neg (fun hc => hb ((and_two_pow_ne_zero_iff _ _).mp hc)), hb', if_neg
        (by simp)]
  by_cases hcase : r.nextBitPos + 1 = 8
  · refine ⟨⟨r.stream, r.sizeInBytes, r.sizeInBits, r.currBytePos + 1, 0,
        r.numBitsRead + 1⟩, ?_, rfl, rfl, rfl, rfl, by simp [hcase], ?_⟩
    · simp only [readNextBit]
      rw [if_neg (by omega), if_pos hcase, hbit]
    · refine ⟨?_, ?_⟩
      · show (0 : Nat) < 8
        omega
      · show r.numBitsRead + 1 = 8 * (r.currBytePos + 1) + 0
        omega
  · refine ⟨⟨r.stream, r.sizeInBytes, r.sizeInBits, r.currBytePos,
        r.nextBitPos + 1, r.numBitsRead + 1⟩, ?_, rfl, rfl, rfl, rfl,
      by simp [hcase], ?_⟩
    · simp only [readNextBit]
      rw [if_neg (by omega), if_neg hcase, hbit]
    · refine ⟨?_, ?_⟩
      · show r.nextBitPos + 1 < 8
        omega
      · show r.numBitsRead + 1 = 8 * r.currBytePos + (r.nextBitPos + 1)
        omega

theorem readBitsGo_spec :
    ∀ (m b num : Nat) (r : BitStreamReader), WFr r → num < 2 ^ b → b + m ≤ 64 →
      (readBitsGo m b num r).1 =
        num + 2 ^ b *
          valFromBits r.stream r.numBitsRead (min m (r.sizeInBits - r.numBitsRead)) ∧
      (readBitsGo m b num r).2.stream = r.stream ∧
      (readBitsGo m b num r).2.sizeInBytes = r.sizeInBytes ∧
      (readBitsGo m b num r).2.sizeInBits = r.sizeInBits ∧
      (readBitsGo m b num r).2.numBitsRead =
        r.numBitsRead + min m (r.sizeInBits - r.numBitsRead) ∧
      WFr (readBitsGo m b num r).2 := by
  intro m
  induction m with
  | zero =>
    intro b num r hwf _ _
    have hmin : min 0 (r.sizeInBits - r.numBitsRead) = 0 := by omega
    simp [readBitsGo, valFromBits, hmin, hwf]
  | succ m ih =>
    intro b num r hwf hnum hb64
    by_cases hend : r.numBitsRead < r.sizeInBits
    · obtain ⟨r', hread, hstream, hbytes, hbits, hnbr, _, hwf'⟩ :=
        readNextBit_spec hwf hend
      simp only [readBitsGo, hread]
      set bit := (if bitOfBuf r.stream r.numBitsRead then (1 : Nat) else 0) with hbitdef
      have hmask : (num &&& (2 ^ 64 - 1 ^^^ 2 ^ b)) = num := by
        apply Nat.eq_of_testBit_eq
        intro i
        rw [Nat.testBit_land, Nat.testBit_xor, Nat.testBit_two_pow_sub_one,
          Nat.testBit_two_pow]
        by_cases hik : num.testBit i = true
        · have hib : i < b := by
            by_contra hge
            have : num < 2 ^ i :=
              lt_of_lt_of_le hnum (Nat.pow_le_pow_right (by norm_num) (by omega))
            rw [Nat.testBit_lt_two_pow this] at hik
            exact absurd hik (by simp)
          rw [hik]
          have h1 : decide (i < 64) = true := by simp; omega
          have h2 : decide (b = i) = false := by simp; omega
          rw [h1, h2]
          rfl
        · have hik' : num.testBit i = false := by
            cases hx : num.testBit i
            · rfl
            · exact absurd hx hik
          rw [hik']
          simp
      have hnewnum : (num &&& (2 ^ 64 - 1 ^^^ 2 ^ b)) ||| (if bit ≠ 0 then 2 ^ b else 0) =
          num + bit * 2 ^ b := by
        rw [hmask]
        by_cases hbv : bit = 0
        · simp [hbv]
        · have hbv1 : bit = 1 := by
            by_cases hc : bitOfBuf r.stream r.numBitsRead = true
            · rw [hbitdef, if_pos hc]
            · exfalso
              apply hbv
              rw [hbitdef, if_neg hc]
          rw [if_pos hbv, hbv1, Nat.one_mul]
          exact lor_two_pow_eq_add hnum
      rw [hnewnum]
      have hnum' : num + bit * 2 ^ b < 2 ^ (b + 1) := by
        have hble : bit ≤ 1 := by
          rw [hbitdef]; split <;> omega
        have : bit * 2 ^ b ≤ 2 ^ b := by
          calc bit * 2 ^ b ≤ 1 * 2 ^ b := Nat.mul_le_mul_right _ hble
          _ = 2 ^ b := Nat.one_mul _
        have h2 : 2 ^ (b + 1) = 2 ^ b + 2 ^ b := by
          rw [Nat.pow_succ]; omega
        omega
      obtain ⟨iv, istream, ibytes, ibits, inbr, iwf⟩ :=
        ih (b + 1) (num + bit * 2 ^ b) r' hwf' hnum' (by omega)
      have hminsucc : min (m + 1) (r.sizeInBits - r.numBitsRead) =
          1 + min m (r.sizeInBits - (r.numBitsRead + 1)) := by omega
      have hvalsucc : valFromBits r.stream r.numBitsRead
          (min (m + 1) (r.sizeInBits - r.numBitsRead)) =
          (if bitOfBuf r.stream r.numBitsRead then 1 else 0) +
            2 * valFromBits r.stream (r.numBitsRead + 1)
              (min m (r.sizeInBits - (r.numBitsRead + 1))) := by
        rw [hminsucc]
        rw [show 1 + min m (r.sizeInBits - (r.numBitsRead + 1)) =
          (min m (r.sizeInBits - (r.numBitsRead + 1))) + 1 by omega]
        rfl
      constructor
      · rw [iv, hstream, hbits, hnbr, hvalsucc]
        rw [← hbitdef]
        ring
      · refine ⟨by rw [istream, hstream], by rw [ibytes, hbytes],
          by rw [ibits, hbits], ?_, iwf⟩
        rw [inbr, hbits, hnbr]
        omega
    · have hnone : r.readNextBit = none := readNextBit_none (by omega)
      rw [readBitsGo, hnone]
      have hmin : min (m + 1) (r.sizeInBits - r.numBitsRead) = 0 := by omega
      simp [hmin, valFromBits, hwf]

theorem readBitsU64_spec {r : BitStreamReader} (hwf : WFr r) (w : Nat) (hw : w ≤ 64) :
    (r.readBitsU64 w).1 =
      valFromBits r.stream r.numBitsRead (min w (r.sizeInBits - r.numBitsRead)) ∧
    (r.readBitsU64 w).2.stream = r.stream ∧
    (r.readBitsU64 w).2.sizeInBytes = r.sizeInBytes ∧
    (r.readBitsU64 w).2.sizeInBits = r.sizeInBits ∧
    (r.readBitsU64 w).2.numBitsRead =
      r.numBitsRead + min w (r.sizeInBits - r.numBitsRead) ∧
    WFr (r.readBitsU64 w).2 := by
  have h := readBitsGo_spec w 0 0 r hwf (by simp [Nat.pow_pos]) (by omega)
  rw [readBitsU64]
  refine ⟨?_, h.2.1, h.2.2.1, h.2.2.2.1, h.2.2.2.2.1, h.2.2.2.2.2⟩
  rw [h.1]
  simp

/-- Reader-side behaviour of `readBitsGo`, independent of the accumulator
    (no 64-bit restriction needed). -/
theorem readBitsGo_reader :
    ∀ (m b num : Nat) (r : BitStreamReader), WFr r →
      (readBitsGo m b num r).2.stream = r.stream ∧
      (readBitsGo m b num r).2.sizeInBytes = r.sizeInBytes ∧
      (readBitsGo m b num r).2.sizeInBits = r.sizeInBits ∧
      (readBitsGo m b num r).2.numBitsRead =
        r.numBitsRead + min m (r.sizeInBits - r.numBitsRead) ∧
      WFr (readBitsGo m b num r).2 := by
  intro m
  induction m with
  | zero =>
    intro b num r hwf
    have hmin : min 0 (r.sizeInBits - r.numBitsRead) = 0 := by omega
    simp [readBitsGo, hmin, hwf]
  | succ m ih =>
    intro b num r hwf
    by_cases hend : r.numBitsRead < r.sizeInBits
    · obtain ⟨r', hread, hstream, hbytes, hbits, hnbr, _, hwf'⟩ :=
        readNextBit_spec hwf hend
      simp only [readBitsGo, hread]
      obtain ⟨istream, ibytes, ibits, inbr, iwf⟩ := ih (b + 1) _ r' hwf'
      refine ⟨by rw [istream, hstream], by rw [ibytes, hbytes],
        by rw [ibits, hbits], ?_, iwf⟩
      rw [inbr, hbits, hnbr]
      omega
    · have hnone : r.readNextBit = none := readNextBit_none (by omega)
      rw [readBitsGo, hnone]
      have hmin : min (m + 1) (r.sizeInBits - r.numBitsRead) = 0 := by omega
      simp [hmin, hwf]

end BitStreamReader

/-! ## C4: writer-to-reader packed-bits round trip -/

/-- C4: appending the `w` low-order bits of `v` (`1 ≤ w ≤ 64`) to any
    well-formed writer state and then reading `w` bits from the resulting
    buffer at the same bit offset yields `v % 2^w`.  The bits land
    LSB-first at consecutive positions (`testBit` clause), and every bit at
    or beyond `numBitsWritten` — in particular the unused trailing bits of
    the final byte — is zero. -/
theorem appendBits_readBits_roundtrip (bs : BitStreamWriter) (v w : Nat)
    (hwf : WFw bs) (_hw1 : 1 ≤ w) (hw64 : w ≤ 64) :
    WFw (bs.appendBitsU64 v w) ∧
    (bs.appendBitsU64 v w).numBitsWritten = bs.numBitsWritten + w ∧
    (∀ k, k < w →
      bitOfBuf (bs.appendBitsU64 v w).stream (bs.numBitsWritten + k) = v.testBit k) ∧
    (∀ p, (bs.appendBitsU64 v w).numBitsWritten ≤ p →
      bitOfBuf (bs.appendBitsU64 v w).stream p = false) ∧
    (∀ r : BitStreamReader, WFr r → r.stream = (bs.appendBitsU64 v w).stream →
      r.numBitsRead = bs.numBitsWritten → bs.numBitsWritten + w ≤ r.sizeInBits →
      (r.readBitsU64 w).1 = v % 2 ^ w ∧
      (r.readBitsU64 w).2.numBitsRead = bs.numBitsWritten + w) := by
  obtain ⟨hwf', hlen, _, hbits⟩ := BitStreamWriter.appendBitsU64_spec hwf v w
  refine ⟨hwf', hlen, hbits, fun p hp => hwf'.2.2 p hp, fun r hrwf hrs hrn hrsz => ?_⟩
  obtain ⟨hval, _, _, _, hnbr, _⟩ := BitStreamReader.readBitsU64_spec hrwf w hw64
  have hmin : min w (r.sizeInBits - r.numBitsRead) = w := by omega
  constructor
  · rw [hval, hmin, hrs, hrn]
    exact valFromBits_eq_mod w v _ _ (fun k hk => hbits k hk)
  · rw [hnbr, hmin, hrn]

/-! ## C5: reader never over-reads -/

theorem readerInv_applyOp {stream : Nat → Nat} {bits : Nat} {r : BitStreamReader}
    (h : ReaderInv stream bits r) (op : ReaderOp) :
    ReaderInv stream bits (applyOp r op) := by
  obtain ⟨hs, hb, hwf, hle⟩ := h
  cases op with
  | bit =>
    by_cases hend : r.numBitsRead < r.sizeInBits
    · obtain ⟨r', hread, hstream, _, hbits, hnbr, _, hwf'⟩ :=
        BitStreamReader.readNextBit_spec hwf hend
      simp only [applyOp, hread]
      exact ⟨by rw [hstream, hs], by rw [hbits, hb], hwf', by omega⟩
    · have hnone : r.readNextBit = none := BitStreamReader.readNextBit_none (by omega)
      simp only [applyOp, hnone]
      exact ⟨hs, hb, hwf, hle⟩
  | bits n =>
    obtain ⟨hstream, _, hbits, hnbr, hwf'⟩ :=
      BitStreamReader.readBitsGo_reader n 0 0 r hwf
    simp only [applyOp, BitStreamReader.readBitsU64]
    exact ⟨by rw [hstream, hs], by rw [hbits, hb], hwf',
      by rw [hnbr, hb]; omega⟩

theorem readerInv_runOps (stream : Nat → Nat) (bits : Nat) (ops : List ReaderOp) :
    ∀ (r : BitStreamReader), ReaderInv stream bits r →
      ReaderInv stream bits (runOps r ops) := by
  induction ops with
  | nil => intro r h; exact h
  | cons op rest ih =>
    intro r h
    exact ih _ (readerInv_applyOp h op)

/-- C5: starting from a freshly constructed reader, no sequence of
    `readNextBit`/`readBitsU64` calls consumes more than `sizeInBits` bits;
    whenever the stream is not exhausted, the byte the next read would
    access lies within the bytes covered by `sizeInBits` (so bytes that
    exist only as padding beyond `sizeInBits` are never touched); and a
    `readBitsU64 w` call at any reachable state reads exactly
    `min w (sizeInBits - numBitsRead)` further bits, returning the value
    assembled from just those bits. -/
theorem reader_never_overreads (stream : Nat → Nat) (bytes bits : Nat)
    (ops : List ReaderOp) :
    (runOps (BitStreamReader.mk0 stream bytes bits) ops).numBitsRead ≤ bits ∧
    ((runOps (BitStreamReader.mk0 stream bytes bits) ops).isEndOfStream = false →
      8 * (runOps (BitStreamReader.mk0 stream bytes bits) ops).currBytePos < bits) ∧
    (∀ w, w ≤ 64 →
      ((runOps (BitStreamReader.mk0 stream bytes bits) ops).readBitsU64 w).1 =
        valFromBits stream
          (runOps (BitStreamReader.mk0 stream bytes bits) ops).numBitsRead
          (min w (bits - (runOps (BitStreamReader.mk0 stream bytes bits) ops).numBitsRead)) ∧
      ((runOps (BitStreamReader.mk0 stream bytes bits) ops).readBitsU64 w).2.numBitsRead =
        min ((runOps (BitStreamReader.mk0 stream bytes bits) ops).numBitsRead + w) bits) := by
  have h0 : ReaderInv stream bits (BitStreamReader.mk0 stream bytes bits) :=
    ⟨rfl, rfl, wfr_mk0 stream bytes bits, by simp [BitStreamReader.mk0]⟩
  obtain ⟨hs, hb, hwf, hle⟩ := readerInv_runOps stream bits ops _ h0
  set r := runOps (BitStreamReader.mk0 stream bytes bits) ops
  refine ⟨hle, fun hne => ?_, fun w hw => ?_⟩
  · have h1 : r.numBitsRead < r.sizeInBits := by
      rcases Nat.lt_or_ge r.numBitsRead r.sizeInBits with h | h
      · exact h
      · exfalso
        have ht : r.isEndOfStream = true := by
          simp [BitStreamReader.isEndOfStream]
          omega
        rw [ht] at hne
        exact Bool.noConfusion hne
    have h2 := hwf.2
    omega
  · obtain ⟨hval, _, _, _, hnbr, _⟩ := BitStreamReader.readBitsU64_spec hwf w hw
    constructor
    · rw [hval, hs, hb]
    · rw [hnbr, hb]
      omega

/-! ## C6: the flush / code-width growth schedule -/

/-- C6: for any dictionary and width `9 ≤ w ≤ 12`, `flush` grows the width
    by one exactly when `size = 2^w` (so 512→10, 1024→11, 2048→12), leaving
    the size unchanged and returning `false`; when the grown width would
    exceed 12 (i.e. `size = 4096` at `w = 12`) it instead resets the size
    to 256 and the width to 9 and returns `true`; in every other case it
    changes nothing and returns `false`. -/
theorem flush_growth_schedule (d : Dictionary) (w : Nat)
    (_h9 : StartBits ≤ w) (h12 : w ≤ MaxDictBits) :
    (d.size ≠ 2 ^ w → d.flush w = (false, w, d)) ∧
    (d.size = 2 ^ w → w < MaxDictBits → d.flush w = (false, w + 1, d)) ∧
    (d.size = 2 ^ w → w = MaxDictBits →
      d.flush w = (true, StartBits, { d with size := FirstCode })) := by
  refine ⟨fun hne => ?_, fun heq hlt => ?_, fun heq he => ?_⟩
  · rw [Dictionary.flush, if_neg hne]
  · rw [Dictionary.flush, if_pos heq, if_neg (by omega)]
  · rw [Dictionary.flush, if_pos heq, if_pos (by omega)]

theorem flush_growth_schedule_witness :
    (StartBits ≤ 9 ∧ 9 ≤ MaxDictBits) ∧
    ((Dictionary.init.size ≠ 2 ^ 9 → Dictionary.init.flush 9 = (false, 9, Dictionary.init)) ∧
     (Dictionary.init.size = 2 ^ 9 → 9 < MaxDictBits →
       Dictionary.init.flush 9 = (false, 9 + 1, Dictionary.init)) ∧
     (Dictionary.init.size = 2 ^ 9 → 9 = MaxDictBits →
       Dictionary.init.flush 9 = (true, StartBits, { Dictionary.init with size := FirstCode }))) :=
  ⟨⟨by decide, by decide⟩, flush_growth_schedule Dictionary.init 9 (by decide) (by decide)⟩

theorem appendBits_readBits_roundtrip_witness :
    (WFw BitStreamWriter.init ∧ 1 ≤ 9 ∧ 9 ≤ 64) ∧
    ((BitStreamReader.mk0 (BitStreamWriter.init.appendBitsU64 300 9).stream 2 9).readBitsU64
        9).1 = 300 % 2 ^ 9 :=
  ⟨⟨wfw_init, by decide, by decide⟩,
    ((appendBits_readBits_roundtrip BitStreamWriter.init 300 9 wfw_init (by decide)
        (by decide)).2.2.2.2
      (BitStreamReader.mk0 (BitStreamWriter.init.appendBitsU64 300 9).stream 2 9)
      (wfr_mk0 _ _ _) rfl rfl (by decide)).1⟩

theorem reader_never_overreads_witness :
    (runOps (BitStreamReader.mk0 (fun _ => 255) 1 5) [ReaderOp.bit, ReaderOp.bits 3]).numBitsRead ≤ 5 ∧
    ((runOps (BitStreamReader.mk0 (fun _ => 255) 1 5)
        [ReaderOp.bit, ReaderOp.bits 3]).readBitsU64 7).2.numBitsRead =
      min ((runOps (BitStreamReader.mk0 (fun _ => 255) 1 5)
        [ReaderOp.bit, ReaderOp.bits 3]).numBitsRead + 7) 5 :=
  ⟨(reader_never_overreads (fun _ => 255) 1 5 [ReaderOp.bit, ReaderOp.bits 3]).1,
    ((reader_never_overreads (fun _ => 255) 1 5 [ReaderOp.bit, ReaderOp.bits 3]).2.2 7
      (by decide)).2⟩

/-! ## C9 / C10: the Base64 decoder -/

/-- C9 counterexample: a byte `≤ 0x20` (here `0x0A`, a newline) in the
    second position of a four-character group is *not* skipped — it is fed
    through the decode table and changes the output, unlike the same input
    with the byte removed. -/
theorem b64_midgroup_whitespace_counterexample :
    (b64Decode (some [66, 10, 66, 66]) 4 true).2 = some [4, 0, 65] ∧
    (b64Decode (some [66, 66, 66]) 3 true).2 = some [4, 16] ∧
    ¬ ((b64Decode (some [66, 10, 66, 66]) 4 true).2 =
        (b64Decode (some [66, 66, 66]) 3 true).2) := by
  refine ⟨by decide, by decide, by decide⟩

/-- C9 (amended): bytes `≤ 0x20` are skipped only when they occur at the
    start of the current four-character group; `'='` (61) and `'.'` (46)
    terminate decoding only when they occur as the third or fourth
    character of a group (after one, respectively two, output bytes of the
    group have been emitted). -/
theorem b64_group_position_rules :
    (∀ (fuel : Nat) (c : Int) (rest out : List Int),
      c ≠ 0 → c ≤ 0x20 → chr rest 0 ≠ 0 →
      b64Go (fuel + 1) (c :: rest) out = b64Go fuel rest out) ∧
    (∀ (fuel : Nat) (e0 e1 e2 : Int) (rest out : List Int),
      0x20 < e0 → e1 ≠ 0 → (e2 = 61 ∨ e2 = 46) →
      b64Go (fuel + 1) (e0 :: e1 :: e2 :: rest) out =
        out ++ [(B64_INDEX e0 * 4 + (Int.land (B64_INDEX e1) 0x30) / 16) % 256]) ∧
    (∀ (fuel : Nat) (e0 e1 e2 e3 : Int) (rest out : List Int),
      0x20 < e0 → e1 ≠ 0 → e2 ≠ 0 → ¬ (e2 = 61 ∨ e2 = 46) → (e3 = 61 ∨ e3 = 46) →
      b64Go (fuel + 1) (e0 :: e1 :: e2 :: e3 :: rest) out =
        out ++ [(B64_INDEX e0 * 4 + (Int.land (B64_INDEX e1) 0x30) / 16) % 256] ++
          [((Int.land (B64_INDEX e1) 0x0f) * 16 +
            (Int.land (B64_INDEX e2) 0x3c) / 4) % 256]) := by
  refine ⟨fun fuel c rest out h0 hle h1 => ?_, fun fuel e0 e1 e2 rest out h0 h1 h2 => ?_,
    fun fuel e0 e1 e2 e3 rest out h0 h1 h2 h2' h3 => ?_⟩
  · rw [b64Go]
    rw [if_pos (show chr (c :: rest) 0 ≠ 0 ∧ chr (c :: rest) 1 ≠ 0 from ⟨h0, h1⟩)]
    rw [if_pos (show chr (c :: rest) 0 ≤ 0x20 from hle)]
    rfl
  · rw [b64Go]
    rw [if_pos (show chr (e0 :: e1 :: e2 :: rest) 0 ≠ 0 ∧
      chr (e0 :: e1 :: e2 :: rest) 1 ≠ 0 from ⟨by show e0 ≠ 0; omega, h1⟩)]
    rw [if_neg (show ¬ chr (e0 :: e1 :: e2 :: rest) 0 ≤ 0x20 by show ¬ e0 ≤ 0x20; omega)]
    rw [if_pos (show chr (e0 :: e1 :: e2 :: rest) 2 = 0 ∨
      chr (e0 :: e1 :: e2 :: rest) 3 < 0 ∨ chr (e0 :: e1 :: e2 :: rest) 2 = 61 ∨
      chr (e0 :: e1 :: e2 :: rest) 2 = 46 by
        show e2 = 0 ∨ _ ∨ e2 = 61 ∨ e2 = 46
        rcases h2 with h | h
        · exact Or.inr (Or.inr (Or.inl h))
        · exact Or.inr (Or.inr (Or.inr h)))]
    rfl
  · rw [b64Go]
    rw [if_pos (show chr (e0 :: e1 :: e2 :: e3 :: rest) 0 ≠ 0 ∧
      chr (e0 :: e1 :: e2 :: e3 :: rest) 1 ≠ 0 from ⟨by show e0 ≠ 0; omega, h1⟩)]
    rw [if_neg (show ¬ chr (e0 :: e1 :: e2 :: e3 :: rest) 0 ≤ 0x20 by
      show ¬ e0 ≤ 0x20; omega)]
    rw [if_neg (show ¬ (chr (e0 :: e1 :: e2 :: e3 :: rest) 2 = 0 ∨
      chr (e0 :: e1 :: e2 :: e3 :: rest) 3 < 0 ∨
      chr (e0 :: e1 :: e2 :: e3 :: rest) 2 = 61 ∨
      chr (e0 :: e1 :: e2 :: e3 :: rest) 2 = 46) by
        show ¬ (e2 = 0 ∨ e3 < 0 ∨ e2 = 61 ∨ e2 = 46)
        rintro (h | h | h | h)
        · exact h2 h
        · rcases h3 with h3 | h3 <;> omega
        · exact h2' (Or.inl h)
        · exact h2' (Or.inr h))]
    rw [if_pos (show chr (e0 :: e1 :: e2 :: e3 :: rest) 3 = 0 ∨
      chr (e0 :: e1 :: e2 :: e3 :: rest) 3 < 0 ∨
      chr (e0 :: e1 :: e2 :: e3 :: rest) 3 = 61 ∨
      chr (e0 :: e1 :: e2 :: e3 :: rest) 3 = 46 by
        show e3 = 0 ∨ e3 < 0 ∨ e3 = 61 ∨ e3 = 46
        rcases h3 with h | h
        · exact Or.inr (Or.inr (Or.inl h))
        · exact Or.inr (Or.inr (Or.inr h)))]
    simp only [chr, List.getD_cons_zero, List.getD_cons_succ, List.append_assoc]

theorem b64_group_position_rules_witness :
    ((10 : Int) ≠ 0 ∧ (10 : Int) ≤ 0x20 ∧ chr [66, 66] 0 ≠ 0) ∧
    b64Go 3 [10, 66, 66] [] = b64Go 2 [66, 66] [] ∧
    b64Go 1 [66, 66, 61] [] =
      [] ++ [(B64_INDEX 66 * 4 + (Int.land (B64_INDEX 66) 0x30) / 16) % 256] :=
  ⟨⟨by decide, by decide, by decide⟩,
    (b64_group_position_rules).1 2 10 [66, 66] [] (by decide) (by decide) (by decide),
    (b64_group_position_rules).2.1 0 66 66 61 [] [] (by decide) (by decide)
      (Or.inl rfl)⟩

/-- C10: `b64Decode` returns 0 for a null input pointer, a null output
    pointer, or `len = 0`; on every other call it returns the fixed
    reserved-buffer size `3 * (1 + (len >> 2)) + 1`, not the number of
    bytes actually decoded — as the concrete instance shows, the returned
    size can exceed the decoded length. -/
theorem b64Decode_return_value :
    (∀ (enc : Option (List Int)) (len : Nat) (dp : Bool),
      (b64Decode enc len dp).1 =
        if enc = none ∨ dp = false ∨ len = 0 then 0 else 3 * (1 + len / 4) + 1) ∧
    (b64Decode (some [66, 66, 66, 66]) 4 true).1 = 7 ∧
    (b64Decode (some [66, 66, 66, 66]) 4 true).2 = some [4, 16, 65] ∧
    ((b64Decode (some [66, 66, 66, 66]) 4 true).2.getD []).length <
      (b64Decode (some [66, 66, 66, 66]) 4 true).1 := by
  refine ⟨fun enc len dp => ?_, by decide, by decide, by decide⟩
  cases enc with
  | none => simp [b64Decode]
  | some s =>
    cases dp
    · simp [b64Decode]
    · by_cases hlen : len = 0
      · simp [b64Decode, hlen]
      · simp [b64Decode, hlen]

/-! ## Dictionary well-formedness and the phrase function -/

theorem dictWF_init : DictWF Dictionary.init := by
  have hsize : Dictionary.init.size = FirstCode := rfl
  refine ⟨by decide, by decide, ?_, ?_⟩
  · intro j hj
    show (if j < FirstCode then (⟨Nil, Int.ofNat j⟩ : Entry) else ⟨Nil, 0⟩) =
      ⟨Nil, Int.ofNat j⟩
    rw [if_pos hj]
  · intro j hjf hjs
    rw [hsize] at hjs
    exact absurd hjs (by omega)

theorem dictWF_add {d : Dictionary} (hwf : DictWF d) {c v : Int}
    (hc0 : 0 ≤ c) (hcs : c < (d.size : Int)) (hv0 : 0 ≤ v) (hv : v < 256) :
    DictWF (d.add c v) := by
  obtain ⟨h1, h2, h3, h4⟩ := hwf
  rw [Dictionary.add]
  by_cases hfull : d.size = MaxDictEntries
  · rw [if_pos hfull]
    exact ⟨h1, h2, h3, h4⟩
  · rw [if_neg hfull]
    refine ⟨by simp; omega, by simp; omega, ?_, ?_⟩
    · intro j hj
      have : ¬ (j = d.size) := by
        have := h1
        simp only [FirstCode, StartBits] at *
        omega
      simp only [this, if_neg this]
      exact h3 j hj
    · intro j hjf hjs
      simp only [] at hjs
      by_cases hje : j = d.size
      · subst hje
        simp only [if_pos rfl]
        exact ⟨hc0, by exact_mod_cast hcs, hv0, hv⟩
      · simp only [if_neg hje]
        exact h4 j hjf (by omega)

theorem dictWF_reset {d : Dictionary} (hwf : DictWF d) :
    DictWF { d with size := FirstCode } := by
  obtain ⟨_, _, h3, _⟩ := hwf
  refine ⟨le_refl _, by norm_num [FirstCode, MaxDictEntries, StartBits, MaxDictBits], ?_, ?_⟩
  · intro j hj
    exact h3 j hj
  · intro j hjf hjs
    simp at hjs
    omega

/-- The chain walk only depends on the entries at indices `≤ n` when it
    starts below `n`, and is independent of the fuel once the fuel exceeds
    `n` (the chain strictly descends, by well-formedness). -/
theorem collectSequence_congr (d d' : Dictionary) (hwf : DictWF d) :
    ∀ (n : Nat) (c : Int) (f1 f2 : Nat), 0 ≤ c → c < (d.size : Int) → c.toNat ≤ n →
      n < f1 → n < f2 → (∀ j, j ≤ n → d'.entries j = d.entries j) →
      collectSequence d' f1 c = collectSequence d f2 c := by
  intro n
  induction n with
  | zero =>
    intro c f1 f2 hc0 _ hcn hf1 hf2 hag
    obtain ⟨k1, rfl⟩ : ∃ k, f1 = k + 1 := ⟨f1 - 1, by omega⟩
    obtain ⟨k2, rfl⟩ : ∃ k, f2 = k + 1 := ⟨f2 - 1, by omega⟩
    have hc : c = 0 := by omega
    subst hc
    simp only [collectSequence, Dictionary.get, Int.toNat_zero]
    rw [hag 0 (le_refl _)]
    have hroot : d.entries 0 = ⟨Nil, Int.ofNat 0⟩ := hwf.2.2.1 0 (by decide)
    rw [hroot]
    norm_num [Nil]
  | succ n ih =>
    intro c f1 f2 hc0 hcs hcn hf1 hf2 hag
    obtain ⟨k1, rfl⟩ : ∃ k, f1 = k + 1 := ⟨f1 - 1, by omega⟩
    obtain ⟨k2, rfl⟩ : ∃ k, f2 = k + 1 := ⟨f2 - 1, by omega⟩
    rw [collectSequence, collectSequence, Dictionary.get, Dictionary.get,
      hag c.toNat (by omega)]
    by_cases hroot : c.toNat < FirstCode
    · have he : d.entries c.toNat = ⟨Nil, Int.ofNat c.toNat⟩ := hwf.2.2.1 _ hroot
      rw [he]
      norm_num [Nil]
    · have hlive := hwf.2.2.2 c.toNat (by omega) (by omega)
      have hcode0 : 0 ≤ (d.entries c.toNat).code := hlive.1
      have hcodelt : (d.entries c.toNat).code < (c.toNat : Int) := hlive.2.1
      have hge : (d.entries c.toNat).code ≥ 0 := hcode0
      rw [if_pos hge, if_pos hge]
      congr 1
      apply ih
      · exact hcode0
      · calc (d.entries c.toNat).code < (c.toNat : Int) := hcodelt
        _ ≤ (d.size : Int) := by exact_mod_cast (by omega : c.toNat ≤ d.size)
      · omega
      · omega
      · omega
      · intro j hj
        exact hag j (by omega)

/-- Fuel irrelevance for the chain walk. -/
theorem collectSequence_fuel (d : Dictionary) (hwf : DictWF d) (c : Int)
    (hc0 : 0 ≤ c) (hcs : c < (d.size : Int)) {f1 f2 : Nat}
    (hf1 : c.toNat < f1) (hf2 : c.toNat < f2) :
    collectSequence d f1 c = collectSequence d f2 c :=
  collectSequence_congr d d hwf c.toNat c f1 f2 hc0 hcs (le_refl _) hf1 hf2
    (fun _ _ => rfl)

/-- Every collected value is a byte. -/
theorem collectSequence_values (d : Dictionary) :
    ∀ (f : Nat) (c : Int), ∀ x ∈ collectSequence d f c, 0 ≤ x ∧ x < 256 := by
  intro f
  induction f with
  | zero => intro c x hx; simp [collectSequence] at hx
  | succ f ih =>
    intro c x hx
    rw [collectSequence] at hx
    rcases List.mem_cons.mp hx with hx | hx
    · subst hx
      constructor
      · exact Int.emod_nonneg _ (by norm_num)
      · exact Int.emod_lt_of_pos _ (by norm_num)
    · by_cases hge : (d.get c).code ≥ 0
      · rw [if_pos hge] at hx
        exact ih _ x hx
      · rw [if_neg hge] at hx
        simp at hx

/-- The chain length is bounded by `code + 1`. -/
theorem collectSequence_length (d : Dictionary) (hwf : DictWF d) :
    ∀ (n : Nat) (c : Int) (f : Nat), 0 ≤ c → c < (d.size : Int) → c.toNat ≤ n →
      n < f → (collectSequence d f c).length ≤ c.toNat + 1 := by
  intro n
  induction n with
  | zero =>
    intro c f hc0 hcs hcn hf
    obtain ⟨k, rfl⟩ : ∃ k, f = k + 1 := ⟨f - 1, by omega⟩
    have hc : c = 0 := by omega
    subst hc
    have hroot : d.entries 0 = ⟨Nil, Int.ofNat 0⟩ := by
      apply hwf.2.2.1
      norm_num [FirstCode, StartBits]
    rw [collectSequence, Dictionary.get]
    simp only [Int.toNat_zero, hroot]
    norm_num [Nil]
  | succ n ih =>
    intro c f hc0 hcs hcn hf
    obtain ⟨k, rfl⟩ : ∃ k, f = k + 1 := ⟨f - 1, by omega⟩
    rw [collectSequence, Dictionary.get]
    by_cases hroot : c.toNat < FirstCode
    · have he : d.entries c.toNat = ⟨Nil, Int.ofNat c.toNat⟩ := hwf.2.2.1 _ hroot
      rw [he]
      norm_num [Nil]
    · have hlive := hwf.2.2.2 c.toNat (by omega) (by omega)
      rw [if_pos hlive.1]
      have hrec := ih (d.entries c.toNat).code k hlive.1
        (by calc (d.entries c.toNat).code < (c.toNat : Int) := hlive.2.1
          _ ≤ (d.size : Int) := by exact_mod_cast (by omega : c.toNat ≤ d.size))
        (by omega) (by omega)
      simp only [List.length_cons]
      have : ((d.entries c.toNat).code).toNat < c.toNat := by omega
      omega

/-- The phrase of a root code is the single byte it stands for. -/
theorem phrase_root (d : Dictionary) (hwf : DictWF d) (c : Int)
    (hc0 : 0 ≤ c) (hc : c < 256) : phrase d c = [c] := by
  rw [phrase, MaxDictEntries]
  rw [show (2 : Nat) ^ MaxDictBits = 4095 + 1 by norm_num [MaxDictBits]]
  rw [collectSequence, Dictionary.get]
  have hroot : d.entries c.toNat = ⟨Nil, Int.ofNat c.toNat⟩ := by
    apply hwf.2.2.1
    simp only [FirstCode, StartBits]
    omega
  rw [hroot]
  have hcv : Int.ofNat c.toNat = c := by
    rw [Int.ofNat_eq_coe]
    exact Int.toNat_of_nonneg hc0
  rw [hcv]
  have : ¬ ((Nil : Int) ≥ 0) := by norm_num [Nil]
  rw [if_neg this]
  have : c % 256 = c := Int.emod_eq_of_lt hc0 hc
  simp [this]

/-- The phrase of a live dynamic entry extends its parent's phrase by the
    entry's value. -/
theorem phrase_child (d : Dictionary) (hwf : DictWF d) (j : Nat)
    (hjf : FirstCode ≤ j) (hjs : j < d.size) :
    phrase d (Int.ofNat j) = phrase d (d.entries j).code ++ [(d.entries j).value] := by
  have hlive := hwf.2.2.2 j hjf hjs
  rw [phrase, phrase]
  rw [show MaxDictEntries = 4095 + 1 by norm_num [MaxDictEntries, MaxDictBits]]
  rw [collectSequence, Dictionary.get]
  have hjt : (Int.ofNat j).toNat = j := by
    rw [Int.ofNat_eq_coe, Int.toNat_ofNat]
  rw [hjt]
  rw [if_pos hlive.1]
  have hv : (d.entries j).value % 256 = (d.entries j).value :=
    Int.emod_eq_of_lt hlive.2.2.1 hlive.2.2.2
  rw [hv]
  have hfuel : collectSequence d 4095 (d.entries j).code =
      collectSequence d (4095 + 1) (d.entries j).code := by
    apply collectSequence_fuel d hwf _ hlive.1
    · calc (d.entries j).code < (j : Int) := hlive.2.1
      _ ≤ (d.size : Int) := by exact_mod_cast Nat.le_of_lt hjs
    · have hj4096 : j < 4096 := by
        have := hwf.2.1
        simp only [MaxDictEntries, MaxDictBits] at this
        omega
      omega
    · have hj4096 : j < 4096 := by
        have := hwf.2.1
        simp only [MaxDictEntries, MaxDictBits] at this
        omega
      omega
  rw [hfuel]
  simp

/-- Phrases of live codes are unaffected by `add`. -/
theorem phrase_add (d : Dictionary) (hwf : DictWF d) (c a v : Int)
    (hc0 : 0 ≤ c) (hcs : c < (d.size : Int)) :
    phrase (d.add a v) c = phrase d c := by
  rw [phrase, phrase]
  congr 1
  apply collectSequence_congr d (d.add a v) hwf c.toNat c _ _ hc0 hcs (le_refl _)
  · have := hwf.2.1
    simp only [MaxDictEntries, MaxDictBits] at *
    omega
  · have := hwf.2.1
    simp only [MaxDictEntries, MaxDictBits] at *
    omega
  · intro j hj
    rw [Dictionary.add]
    by_cases hfull : d.size = MaxDictEntries
    · rw [if_pos hfull]
    · rw [if_neg hfull]
      have : ¬ (j = d.size) := by omega
      simp only [if_neg this]

/-- Phrases of root codes survive an epoch reset. -/
theorem phrase_reset (d : Dictionary) (hwf : DictWF d) (c : Int)
    (hc0 : 0 ≤ c) (hc : c < 256) :
    phrase { d with size := FirstCode } c = [c] :=
  phrase_root _ (dictWF_reset hwf) c hc0 hc

/-- Phrases are never empty. -/
theorem phrase_ne_nil (d : Dictionary) (c : Int) : phrase d c ≠ [] := by
  rw [phrase]
  rw [show MaxDictEntries = 4095 + 1 by norm_num [MaxDictEntries, MaxDictBits]]
  rw [collectSequence]
  simp

/-! ## outputSequence correctness -/

theorem headD_reverse (l : List Int) (x : Int) :
    (l.reverse).headD x = l.getLastD x := by
  rcases l.eq_nil_or_concat with rfl | ⟨l', a, rfl⟩
  · rfl
  · rw [List.concat_eq_append, List.reverse_concat, List.getLastD_concat]
    rfl

theorem outputBytes_ok (vals : List Int) :
    ∀ (out : List Nat) (cap : Nat), out.length + vals.length ≤ cap →
      outputBytes vals out cap =
        (true, out ++ vals.map (fun v => (v % 256).toNat)) := by
  induction vals with
  | nil => intro out cap _; simp [outputBytes]
  | cons v rest ih =>
    intro out cap hcap
    have hwrite : outputByte v out cap = some (out ++ [(v % 256).toNat]) := by
      rw [outputByte, if_neg (by simp at hcap ⊢; omega)]
    simp only [outputBytes, hwrite]
    rw [ih (out ++ [(v % 256).toNat]) cap (by simp at hcap ⊢; omega)]
    simp

theorem outputBytes_partial (vals : List Int) :
    ∀ (out : List Nat) (cap : Nat), out.length ≤ cap →
      cap < out.length + vals.length →
      outputBytes vals out cap =
        (false, out ++ (vals.take (cap - out.length)).map (fun v => (v % 256).toNat)) := by
  induction vals with
  | nil => intro out cap h1 h2; simp at h2; omega
  | cons v rest ih =>
    intro out cap h1 h2
    by_cases hfull : out.length ≥ cap
    · have hwrite : outputByte v out cap = none := by
        rw [outputByte, if_pos hfull]
      simp only [outputBytes, hwrite]
      have : cap - out.length = 0 := by omega
      simp [this]
    · have hwrite : outputByte v out cap = some (out ++ [(v % 256).toNat]) := by
        rw [outputByte, if_neg hfull]
      simp only [outputBytes, hwrite]
      rw [ih (out ++ [(v % 256).toNat]) cap (by simp; omega) (by simp at h2 ⊢; omega)]
      have htake : cap - out.length = (cap - (out.length + 1)) + 1 := by omega
      rw [htake, List.take_succ_cons]
      simp

theorem outputSequence_ok (d : Dictionary) (hwf : DictWF d) (c : Int)
    (hc0 : 0 ≤ c) (hcs : c < (d.size : Int)) (out : List Nat) (cap : Nat)
    (hcap : out.length + (phraseN d c).length ≤ cap) :
    outputSequence d c out cap = (true, out ++ phraseN d c, (phrase d c).headD 0) := by
  rw [outputSequence]
  have hvals := collectSequence_values d MaxDictEntries c
  have hmap : (collectSequence d MaxDictEntries c).reverse.map
      (fun v => (v % 256).toNat) = phraseN d c := by
    rw [phraseN, phrase]
    apply List.map_congr_left
    intro x hx
    have hx' := hvals x (List.mem_reverse.mp hx)
    have : x % 256 = x := Int.emod_eq_of_lt hx'.1 hx'.2
    rw [this]
  have hlen : (phraseN d c).length = (collectSequence d MaxDictEntries c).reverse.length := by
    rw [← hmap, List.length_map]
  rw [outputBytes_ok _ out cap (by rw [hlen] at hcap; exact hcap), hmap]
  rw [show (phrase d c).headD 0 = (collectSequence d MaxDictEntries c).getLastD 0 from
    headD_reverse _ 0]

/-! ## C8: the parent-chain walk terminates within the scratch buffer -/

/-- C8: for a well-formed dictionary (the invariant maintained by every
    encode and decode of a well-formed stream) and a populated code `c`,
    the do-while chain walk of `outputSequence` is already complete at any
    fuel above `c.toNat`: it visits at most `c.toNat + 1 ≤ 4096` entries
    (the chain strictly descends to a root), so the 4096-byte scratch
    array `sequence` is never overrun, and `outputSequence` writes exactly
    the code's phrase in forward order and reports the phrase's first byte. -/
theorem outputSequence_chain_bounded (d : Dictionary) (hwf : DictWF d) (c : Int)
    (hc0 : 0 ≤ c) (hcs : c < (d.size : Int)) :
    (collectSequence d MaxDictEntries c).length ≤ c.toNat + 1 ∧
    c.toNat + 1 ≤ MaxDictEntries ∧
    (∀ fuel, c.toNat < fuel →
      collectSequence d fuel c = collectSequence d MaxDictEntries c) ∧
    (∀ (out : List Nat) (cap : Nat), out.length + (phraseN d c).length ≤ cap →
      outputSequence d c out cap = (true, out ++ phraseN d c, (phrase d c).headD 0)) := by
  have hsize : d.size ≤ MaxDictEntries := hwf.2.1
  have hct : c.toNat < MaxDictEntries := by
    simp only [MaxDictEntries, MaxDictBits] at *
    omega
  refine ⟨?_, by omega, fun fuel hf => ?_, fun out cap hcap => ?_⟩
  · exact collectSequence_length d hwf c.toNat c MaxDictEntries hc0 hcs (le_refl _) hct
  · exact collectSequence_fuel d hwf c hc0 hcs hf hct
  · exact outputSequence_ok d hwf c hc0 hcs out cap hcap

theorem outputSequence_chain_bounded_witness :
    (DictWF Dictionary.init ∧ (0 : Int) ≤ 65 ∧ (65 : Int) < (Dictionary.init.size : Int)) ∧
    ((collectSequence Dictionary.init MaxDictEntries 65).length ≤ (65 : Int).toNat + 1 ∧
     (65 : Int).toNat + 1 ≤ MaxDictEntries ∧
     (∀ fuel, (65 : Int).toNat < fuel →
       collectSequence Dictionary.init fuel 65 =
         collectSequence Dictionary.init MaxDictEntries 65) ∧
     (∀ (out : List Nat) (cap : Nat),
       out.length + (phraseN Dictionary.init 65).length ≤ cap →
       outputSequence Dictionary.init 65 out cap =
         (true, out ++ phraseN Dictionary.init 65, (phrase Dictionary.init 65).headD 0))) :=
  ⟨⟨dictWF_init, by decide, by decide⟩,
    outputSequence_chain_bounded Dictionary.init dictWF_init 65 (by decide) (by decide)⟩

/-! ## The decode-loop body as a step function

`decodeStepFull` is the body of `lzwDecodeLoop` after the code has been
read: `.error o` is a `break` (capacity reached) returning output `o`,
`.ok` carries the next loop state `(dictionary, prevCode, firstByte,
codeBitsWidth, output)` together with the `(dictionary size after add,
width used)` pair observed at this code boundary.  The loop's incoming
`firstByte` is dead state: every path that reaches `add` recomputes it
first, so it is not a parameter. -/

/-- One unfolding of `lzwDecodeLoop` in terms of `decodeStepFull`. -/
theorem lzwDecodeLoop_succ (fuel : Nat) (bitStream : BitStreamReader)
    (dictionary : Dictionary) (prevCode firstByte : Int) (codeBitsWidth : Nat)
    (out : List Nat) (cap : Nat) :
    lzwDecodeLoop (fuel + 1) bitStream dictionary prevCode firstByte codeBitsWidth out cap =
      if bitStream.isEndOfStream then out
      else
        match decodeStepFull dictionary prevCode codeBitsWidth out cap
            (Int.ofNat (bitStream.readBitsU64 codeBitsWidth).1) with
        | Except.error o => o
        | Except.ok (d', p', fb', w', out', _) =>
          lzwDecodeLoop fuel (bitStream.readBitsU64 codeBitsWidth).2 d' p' fb' w' out' cap := by
  rw [lzwDecodeLoop, decodeStepFull]
  simp only []
  split
  · rfl
  · split
    · split
      · rfl
      · rfl
    · split
      · rfl
      · split
        · rfl
        · rfl
/-! ## Output-capacity truncation -/

theorem outputBytes_extends (vals : List Int) :
    ∀ (out : List Nat) (cap : Nat), ∃ t, (outputBytes vals out cap).2 = out ++ t := by
  induction vals with
  | nil => intro out cap; exact ⟨[], by simp [outputBytes]⟩
  | cons v rest ih =>
    intro out cap
    by_cases hfull : out.length ≥ cap
    · have hwrite : outputByte v out cap = none := by
        rw [outputByte, if_pos hfull]
      exact ⟨[], by simp [outputBytes, hwrite]⟩
    · have hwrite : outputByte v out cap = some (out ++ [(v % 256).toNat]) := by
        rw [outputByte, if_neg hfull]
      obtain ⟨t, ht⟩ := ih (out ++ [(v % 256).toNat]) cap
      exact ⟨(v % 256).toNat :: t, by simp [outputBytes, hwrite, ht]⟩

theorem outputByte_cases (code : Int) (out : List Nat) (cap : Nat) :
    (out.length < cap ∧ outputByte code out cap = some (out ++ [(code % 256).toNat])) ∨
    (cap ≤ out.length ∧ outputByte code out cap = none) := by
  by_cases h : out.length ≥ cap
  · exact Or.inr ⟨h, by rw [outputByte, if_pos h]⟩
  · exact Or.inl ⟨by omega, by rw [outputByte, if_neg h]⟩

theorem outputSequence_out_extends (d : Dictionary) (c : Int) (out : List Nat)
    (cap : Nat) : ∃ t, (outputSequence d c out cap).2.1 = out ++ t := by
  rw [outputSequence]
  exact outputBytes_extends _ out cap

theorem decodeStepFull_extends (d : Dictionary) (prev : Int) (w : Nat)
    (out : List Nat) (cap : Nat) (code : Int) :
    (∀ o, decodeStepFull d prev w out cap code = Except.error o → ∃ t, o = out ++ t) ∧
    (∀ d' p' fb' w' out' rec,
      decodeStepFull d prev w out cap code = Except.ok (d', p', fb', w', out', rec) →
      ∃ t, out' = out ++ t) := by
  rw [decodeStepFull]
  by_cases hprev : prev = Nil
  · rw [if_pos hprev]
    rcases outputByte_cases code out cap with ⟨hlt, hw⟩ | ⟨hge, hw⟩
    · rw [hw]
      constructor
      · intro o ho
        exact absurd ho (by simp)
      · intro d' p' fb' w' out' rec h
        cases h
        exact ⟨[(code % 256).toNat], rfl⟩
    · rw [hw]
      constructor
      · intro o ho
        cases ho
        exact ⟨[], (List.append_nil out).symm⟩
      · intro d' p' fb' w' out' rec h
        exact absurd h (by simp)
  · rw [if_neg hprev]
    simp only []
    split
    · constructor
      · intro o ho
        simp only [Except.error.injEq] at ho
        subst ho
        split
        · exact outputSequence_out_extends d prev out cap
        · exact outputSequence_out_extends d code out cap
      · intro d' p' fb' w' out' rec h
        exact absurd h (by simp)
    · rename_i out1 fb hsome
      have hout1 : ∃ t, out1 = out ++ t := by
        rcases hsplit : (decide (code ≥ (d.size : Int))) with _ | _
        · have hdec : ¬ (code ≥ (d.size : Int)) := of_decide_eq_false hsplit
          rw [if_neg hdec] at hsome
          by_cases hok : (outputSequence d code out cap).1
          · rw [if_pos hok] at hsome
            simp only [Option.some.injEq, Prod.mk.injEq] at hsome
            obtain ⟨t, ht⟩ := outputSequence_out_extends d code out cap
            exact ⟨t, by rw [← hsome.1, ht]⟩
          · rw [if_neg hok] at hsome
            exact absurd hsome (by simp)
        · have hdec : code ≥ (d.size : Int) := of_decide_eq_true hsplit
          rw [if_pos hdec] at hsome
          by_cases hok : (outputSequence d prev out cap).1
          · rw [if_pos hok] at hsome
            rcases outputByte_cases (outputSequence d prev out cap).2.2
                (outputSequence d prev out cap).2.1 cap with ⟨_, hw⟩ | ⟨_, hw⟩
            · rw [hw] at hsome
              simp only [Option.some.injEq, Prod.mk.injEq] at hsome
              obtain ⟨t, ht⟩ := outputSequence_out_extends d prev out cap
              exact ⟨t ++ [((outputSequence d prev out cap).2.2 % 256).toNat], by
                rw [← hsome.1, ht, List.append_assoc]⟩
            · rw [hw] at hsome
              exact absurd hsome (by simp)
          · rw [if_neg hok] at hsome
            exact absurd hsome (by simp)
      constructor
      · intro o ho
        split at ho <;> exact absurd ho (by simp)
      · intro d' p' fb' w' out' rec h
        split at h <;> (cases h; exact hout1)

theorem decodeLoop_extends :
    ∀ (fuel : Nat) (r : BitStreamReader) (d : Dictionary) (prev fb : Int)
      (w : Nat) (out : List Nat) (cap : Nat),
      ∃ t, lzwDecodeLoop fuel r d prev fb w out cap = out ++ t := by
  intro fuel
  induction fuel with
  | zero =>
    intro r d prev fb w out cap
    exact ⟨[], by simp [lzwDecodeLoop]⟩
  | succ fuel ih =>
    intro r d prev fb w out cap
    rw [lzwDecodeLoop_succ]
    by_cases hend : r.isEndOfStream
    · rw [if_pos hend]
      exact ⟨[], by simp⟩
    · rw [if_neg hend]
      rcases hstep : decodeStepFull d prev w out cap
          (Int.ofNat (r.readBitsU64 w).1) with o | ⟨d', p', fb', w', out', rec⟩
      · obtain ⟨t, ht⟩ := (decodeStepFull_extends d prev w out cap _).1 o hstep
        exact ⟨t, ht⟩
      · obtain ⟨t1, ht1⟩ := (decodeStepFull_extends d prev w out cap _).2
          d' p' fb' w' out' rec hstep
        obtain ⟨t2, ht2⟩ := ih (r.readBitsU64 w).2 d' p' fb' w' out' cap
        refine ⟨t1 ++ t2, ?_⟩
        show lzwDecodeLoop fuel (r.readBitsU64 w).2 d' p' fb' w' out' cap =
          out ++ (t1 ++ t2)
        rw [ht2, ht1, List.append_assoc]

theorem outputSequence_cases (d : Dictionary) (c : Int) (out : List Nat) (cap : Nat)
    (hout : out.length ≤ cap) :
    (out.length + (seqBytes d c).length ≤ cap ∧
      outputSequence d c out cap = (true, out ++ seqBytes d c, seqFB d c)) ∨
    (cap < out.length + (seqBytes d c).length ∧
      outputSequence d c out cap =
        (false, out ++ (seqBytes d c).take (cap - out.length), seqFB d c)) := by
  by_cases hfit : out.length + (seqBytes d c).length ≤ cap
  · left
    refine ⟨hfit, ?_⟩
    rw [outputSequence, outputBytes_ok _ out cap
      (by rw [seqBytes] at hfit; simp at hfit ⊢; omega)]
    rfl
  · right
    refine ⟨by omega, ?_⟩
    rw [outputSequence, outputBytes_partial _ out cap hout
      (by rw [seqBytes] at hfit; simp at hfit ⊢; omega)]
    simp only [seqBytes, seqFB, List.map_take]

theorem take_append_of_length_le {out l : List Nat} {N : Nat} (h : out.length ≤ N) :
    (out ++ l).take N = out ++ l.take (N - out.length) := by
  rw [List.take_append_eq_append_take, List.take_of_length_le h]

theorem ite_ok_out {c : Prop} [Decidable c]
    {d1 d2 d' : Dictionary} {p1 p2 p' fb1 fb2 fb' : Int} {w1 w2 w' : Nat}
    {o0 o' : List Nat} {r1 r2 r' : Nat × Nat}
    (h : (if c then Except.ok (d1, p1, fb1, w1, o0, r1)
          else Except.ok (d2, p2, fb2, w2, o0, r2)) =
        (Except.ok (d', p', fb', w', o', r') :
          Except (List Nat) (Dictionary × Int × Int × Nat × List Nat × (Nat × Nat)))) :
    o' = o0 := by
  split at h <;> (cases h; rfl)

theorem ite_ok_ne_error {c : Prop} [Decidable c]
    {x y : Dictionary × Int × Int × Nat × List Nat × (Nat × Nat)} {o : List Nat} :
    (if c then Except.ok x else Except.ok y) ≠
      (Except.error o : Except (List Nat) (Dictionary × Int × Int × Nat × List Nat × (Nat × Nat))) := by
  split <;> simp

theorem decodeStepFull_trunc (d : Dictionary) (prev : Int) (w : Nat) (out : List Nat)
    (code : Int) (N M : Nat) (hNM : N ≤ M) (hout : out.length ≤ N) :
    (decodeStepFull d prev w out N code = decodeStepFull d prev w out M code ∧
     (∀ o, decodeStepFull d prev w out N code ≠ Except.error o) ∧
     (∀ d' p' fb' w' out' rec,
       decodeStepFull d prev w out N code = Except.ok (d', p', fb', w', out', rec) →
       out'.length ≤ N)) ∨
    (∃ oN, decodeStepFull d prev w out N code = Except.error oN ∧ oN.length = N ∧
      ((∃ oM, decodeStepFull d prev w out M code = Except.error oM ∧ oN = oM.take N) ∨
       ((∀ o, decodeStepFull d prev w out M code ≠ Except.error o) ∧
        (∀ d' p' fb' w' out' rec,
          decodeStepFull d prev w out M code = Except.ok (d', p', fb', w', out', rec) →
          N ≤ out'.length ∧ oN = out'.take N)))) := by
  by_cases hprev : prev = Nil
  · -- literal branch
    by_cases hlt : out.length < N
    · left
      have hwN : outputByte code out N = some (out ++ [(code % 256).toNat]) := by
        rw [outputByte, if_neg (by omega)]
      have hwM : outputByte code out M = some (out ++ [(code % 256).toNat]) := by
        rw [outputByte, if_neg (by omega)]
      have hredN : decodeStepFull d prev w out N code =
          Except.ok (d, code, code, w, out ++ [(code % 256).toNat], (d.size, w)) := by
        rw [decodeStepFull, if_pos hprev, hwN]
      have hredM : decodeStepFull d prev w out M code =
          Except.ok (d, code, code, w, out ++ [(code % 256).toNat], (d.size, w)) := by
        rw [decodeStepFull, if_pos hprev, hwM]
      refine ⟨by rw [hredN, hredM], by rw [hredN]; simp, ?_⟩
      intro d' p' fb' w' out' rec h
      rw [hredN] at h
      cases h
      simp
      omega
    · -- out.length = N
      have heq : out.length = N := by omega
      have hwN : outputByte code out N = none := by
        rw [outputByte, if_pos (by omega)]
      have hredN : decodeStepFull d prev w out N code = Except.error out := by
        rw [decodeStepFull, if_pos hprev, hwN]
      right
      refine ⟨out, hredN, heq, ?_⟩
      by_cases hltM : out.length < M
      · right
        have hwM : outputByte code out M = some (out ++ [(code % 256).toNat]) := by
          rw [outputByte, if_neg (by omega)]
        have hredM : decodeStepFull d prev w out M code =
            Except.ok (d, code, code, w, out ++ [(code % 256).toNat], (d.size, w)) := by
          rw [decodeStepFull, if_pos hprev, hwM]
        refine ⟨by rw [hredM]; simp, ?_⟩
        intro d' p' fb' w' out' rec h
        rw [hredM] at h
        cases h
        constructor
        · simp
          omega
        · rw [take_append_of_length_le (by omega)]
          simp [heq]
      · left
        have hwM : outputByte code out M = none := by
          rw [outputByte, if_pos (by omega)]
        refine ⟨out, by rw [decodeStepFull, if_pos hprev, hwM], ?_⟩
        rw [List.take_of_length_le (by omega)]
  · -- non-literal branch
    by_cases hge : code ≥ (d.size : Int)
    · -- KwKwK path: sequence of prev, then one extra byte
      rcases outputSequence_cases d prev out N hout with ⟨hfitN, hosN⟩ | ⟨hbigN, hosN⟩
      · have hfitM : out.length + (seqBytes d prev).length ≤ M := by omega
        have hosM := (outputSequence_cases d prev out M (by omega)).resolve_right
          (by rintro ⟨h1, _⟩; omega)
        have hlen1 : (out ++ seqBytes d prev).length =
            out.length + (seqBytes d prev).length := by simp
        by_cases hlt1 : (out ++ seqBytes d prev).length < N
        · -- extra byte fits in N too: both ok, identical
          left
          have hwN : outputByte (seqFB d prev) (out ++ seqBytes d prev) N =
              some ((out ++ seqBytes d prev) ++ [(seqFB d prev % 256).toNat]) := by
            rw [outputByte, if_neg (by omega)]
          have hwM : outputByte (seqFB d prev) (out ++ seqBytes d prev) M =
              some ((out ++ seqBytes d prev) ++ [(seqFB d prev % 256).toNat]) := by
            rw [outputByte, if_neg (by omega)]
          have hredN : decodeStepFull d prev w out N code =
              (if ((d.add prev (seqFB d prev)).flush w).1 then
                Except.ok (((d.add prev (seqFB d prev)).flush w).2.2, Nil,
                  seqFB d prev, ((d.add prev (seqFB d prev)).flush w).2.1,
                  (out ++ seqBytes d prev) ++ [(seqFB d prev % 256).toNat],
                  ((d.add prev (seqFB d prev)).size, w))
              else
                Except.ok (((d.add prev (seqFB d prev)).flush w).2.2, code,
                  seqFB d prev, ((d.add prev (seqFB d prev)).flush w).2.1,
                  (out ++ seqBytes d prev) ++ [(seqFB d prev % 256).toNat],
                  ((d.add prev (seqFB d prev)).size, w))) := by
            rw [decodeStepFull, if_neg hprev]
            simp only [if_pos hge, hosN, hwN]
            rfl
          have hredM : decodeStepFull d prev w out M code =
              (if ((d.add prev (seqFB d prev)).flush w).1 then
                Except.ok (((d.add prev (seqFB d prev)).flush w).2.2, Nil,
                  seqFB d prev, ((d.add prev (seqFB d prev)).flush w).2.1,
                  (out ++ seqBytes d prev) ++ [(seqFB d prev % 256).toNat],
                  ((d.add prev (seqFB d prev)).size, w))
              else
                Except.ok (((d.add prev (seqFB d prev)).flush w).2.2, code,
                  seqFB d prev, ((d.add prev (seqFB d prev)).flush w).2.1,
                  (out ++ seqBytes d prev) ++ [(seqFB d prev % 256).toNat],
                  ((d.add prev (seqFB d prev)).size, w))) := by
            rw [decodeStepFull, if_neg hprev]
            simp only [if_pos hge, hosM, hwM]
            rfl
          refine ⟨by rw [hredN, hredM], ?_, ?_⟩
          · intro o
            rw [hredN]
            exact ite_ok_ne_error
          · intro d' p' fb' w' out' rec h
            rw [hredN] at h
            have := ite_ok_out h
            subst this
            simp
            simp at hlt1
            omega
        · -- extra byte fails in N: break with the sequence output, length N
          have heq1 : (out ++ seqBytes d prev).length = N := by omega
          have hwN : outputByte (seqFB d prev) (out ++ seqBytes d prev) N = none := by
            rw [outputByte, if_pos (by omega)]
          have hredN : decodeStepFull d prev w out N code =
              Except.error (out ++ seqBytes d prev) := by
            rw [decodeStepFull, if_neg hprev]
            simp only [if_pos hge, hosN, hwN, hosN]
            rfl
          right
          refine ⟨out ++ seqBytes d prev, hredN, heq1, ?_⟩
          by_cases hlt1M : (out ++ seqBytes d prev).length < M
          · right
            have hwM : outputByte (seqFB d prev) (out ++ seqBytes d prev) M =
                some ((out ++ seqBytes d prev) ++ [(seqFB d prev % 256).toNat]) := by
              rw [outputByte, if_neg (by omega)]
            have hredM : decodeStepFull d prev w out M code =
                (if ((d.add prev (seqFB d prev)).flush w).1 then
                  Except.ok (((d.add prev (seqFB d prev)).flush w).2.2, Nil,
                    seqFB d prev, ((d.add prev (seqFB d prev)).flush w).2.1,
                    (out ++ seqBytes d prev) ++ [(seqFB d prev % 256).toNat],
                    ((d.add prev (seqFB d prev)).size, w))
                else
                  Except.ok (((d.add prev (seqFB d prev)).flush w).2.2, code,
                    seqFB d prev, ((d.add prev (seqFB d prev)).flush w).2.1,
                    (out ++ seqBytes d prev) ++ [(seqFB d prev % 256).toNat],
                    ((d.add prev (seqFB d prev)).size, w))) := by
              rw [decodeStepFull, if_neg hprev]
              simp only [if_pos hge, hosM, hwM]
              rfl
            refine ⟨?_, ?_⟩
            · intro o
              rw [hredM]
              exact ite_ok_ne_error
            · intro d' p' fb' w' out' rec h
              rw [hredM] at h
              have := ite_ok_out h
              subst this
              constructor
              · simp
                simp at heq1
                omega
              · rw [take_append_of_length_le (by omega)]
                simp [heq1]
          · left
            have hwM : outputByte (seqFB d prev) (out ++ seqBytes d prev) M = none := by
              rw [outputByte, if_pos (by omega)]
            have hredM : decodeStepFull d prev w out M code =
                Except.error (out ++ seqBytes d prev) := by
              rw [decodeStepFull, if_neg hprev]
              simp only [if_pos hge, hosM, hwM, hosM]
              rfl
            exact ⟨out ++ seqBytes d prev, hredM,
              by rw [List.take_of_length_le (by omega)]⟩
      · -- sequence does not fit in N: break with N bytes
        right
        have hredN : decodeStepFull d prev w out N code =
            Except.error (out ++ (seqBytes d prev).take (N - out.length)) := by
          rw [decodeStepFull, if_neg hprev]
          simp only [if_pos hge, hosN]
          rfl
        have hlenN : (out ++ (seqBytes d prev).take (N - out.length)).length = N := by
          simp
          omega
        refine ⟨_, hredN, hlenN, ?_⟩
        rcases outputSequence_cases d prev out M (by omega) with ⟨hfitM, hosM⟩ |
          ⟨hbigM, hosM⟩
        · by_cases hlt1M : (out ++ seqBytes d prev).length < M
          · right
            have hwM : outputByte (seqFB d prev) (out ++ seqBytes d prev) M =
                some ((out ++ seqBytes d prev) ++ [(seqFB d prev % 256).toNat]) := by
              rw [outputByte, if_neg (by omega)]
            have hredM : decodeStepFull d prev w out M code =
                (if ((d.add prev (seqFB d prev)).flush w).1 then
                  Except.ok (((d.add prev (seqFB d prev)).flush w).2.2, Nil,
                    seqFB d prev, ((d.add prev (seqFB d prev)).flush w).2.1,
                    (out ++ seqBytes d prev) ++ [(seqFB d prev % 256).toNat],
                    ((d.add prev (seqFB d prev)).size, w))
                else
                  Except.ok (((d.add prev (seqFB d prev)).flush w).2.2, code,
                    seqFB d prev, ((d.add prev (seqFB d prev)).flush w).2.1,
                    (out ++ seqBytes d prev) ++ [(seqFB d prev % 256).toNat],
                    ((d.add prev (seqFB d prev)).size, w))) := by
              rw [decodeStepFull, if_neg hprev]
              simp only [if_pos hge, hosM, hwM]
              rfl
            refine ⟨?_, ?_⟩
            · intro o
              rw [hredM]
              exact ite_ok_ne_error
            · intro d' p' fb' w' out' rec h
              rw [hredM] at h
              have := ite_ok_out h
              subst this
              constructor
              · simp
                omega
              · rw [List.append_assoc, take_append_of_length_le (by omega),
                  List.take_append_eq_append_take]
                have hz : N - out.length - (seqBytes d prev).length = 0 := by omega
                simp [hz]
          · left
            have hwM : outputByte (seqFB d prev) (out ++ seqBytes d prev) M = none := by
              rw [outputByte, if_pos (by omega)]
            have hredM : decodeStepFull d prev w out M code =
                Except.error (out ++ seqBytes d prev) := by
              rw [decodeStepFull, if_neg hprev]
              simp only [if_pos hge, hosM, hwM, hosM]
              rfl
            refine ⟨out ++ seqBytes d prev, hredM, ?_⟩
            rw [take_append_of_length_le (by omega)]
        · left
          have hredM : decodeStepFull d prev w out M code =
              Except.error (out ++ (seqBytes d prev).take (M - out.length)) := by
            rw [decodeStepFull, if_neg hprev]
            simp only [if_pos hge, hosM]
            rfl
          refine ⟨_, hredM, ?_⟩
          rw [take_append_of_length_le (by omega), List.take_take]
          congr 2
          omega
    · -- normal path: sequence of the read code only
      rcases outputSequence_cases d code out N hout with ⟨hfitN, hosN⟩ | ⟨hbigN, hosN⟩
      · left
        have hfitM : out.length + (seqBytes d code).length ≤ M := by omega
        have hosM := (outputSequence_cases d code out M (by omega)).resolve_right
          (by rintro ⟨h1, _⟩; omega)
        have hredN : decodeStepFull d prev w out N code =
            (if ((d.add prev (seqFB d code)).flush w).1 then
              Except.ok (((d.add prev (seqFB d code)).flush w).2.2, Nil,
                seqFB d code, ((d.add prev (seqFB d code)).flush w).2.1,
                out ++ seqBytes d code, ((d.add prev (seqFB d code)).size, w))
            else
              Except.ok (((d.add prev (seqFB d code)).flush w).2.2, code,
                seqFB d code, ((d.add prev (seqFB d code)).flush w).2.1,
                out ++ seqBytes d code, ((d.add prev (seqFB d code)).size, w))) := by
          rw [decodeStepFull, if_neg hprev]
          simp only [if_neg hge, hosN]
          rfl
        have hredM : decodeStepFull d prev w out M code =
            (if ((d.add prev (seqFB d code)).flush w).1 then
              Except.ok (((d.add prev (seqFB d code)).flush w).2.2, Nil,
                seqFB d code, ((d.add prev (seqFB d code)).flush w).2.1,
                out ++ seqBytes d code, ((d.add prev (seqFB d code)).size, w))
            else
              Except.ok (((d.add prev (seqFB d code)).flush w).2.2, code,
                seqFB d code, ((d.add prev (seqFB d code)).flush w).2.1,
                out ++ seqBytes d code, ((d.add prev (seqFB d code)).size, w))) := by
          rw [decodeStepFull, if_neg hprev]
          simp only [if_neg hge, hosM]
          rfl
        refine ⟨by rw [hredN, hredM], ?_, ?_⟩
        · intro o
          rw [hredN]
          exact ite_ok_ne_error
        · intro d' p' fb' w' out' rec h
          rw [hredN] at h
          have := ite_ok_out h
          subst this
          simp
          omega
      · right
        have hredN : decodeStepFull d prev w out N code =
            Except.error (out ++ (seqBytes d code).take (N - out.length)) := by
          rw [decodeStepFull, if_neg hprev]
          simp only [if_neg hge, hosN]
          rfl
        have hlenN : (out ++ (seqBytes d code).take (N - out.length)).length = N := by
          simp
          omega
        refine ⟨_, hredN, hlenN, ?_⟩
        rcases outputSequence_cases d code out M (by omega) with ⟨hfitM, hosM⟩ |
          ⟨hbigM, hosM⟩
        · right
          have hredM : decodeStepFull d prev w out M code =
              (if ((d.add prev (seqFB d code)).flush w).1 then
                Except.ok (((d.add prev (seqFB d code)).flush w).2.2, Nil,
                  seqFB d code, ((d.add prev (seqFB d code)).flush w).2.1,
                  out ++ seqBytes d code, ((d.add prev (seqFB d code)).size, w))
              else
                Except.ok (((d.add prev (seqFB d code)).flush w).2.2, code,
                  seqFB d code, ((d.add prev (seqFB d code)).flush w).2.1,
                  out ++ seqBytes d code, ((d.add prev (seqFB d code)).size, w))) := by
            rw [decodeStepFull, if_neg hprev]
            simp only [if_neg hge, hosM]
            rfl
          refine ⟨?_, ?_⟩
          · intro o
            rw [hredM]
            exact ite_ok_ne_error
          · intro d' p' fb' w' out' rec h
            rw [hredM] at h
            have := ite_ok_out h
            subst this
            constructor
            · simp
              omega
            · rw [take_append_of_length_le (by omega)]
        · left
          have hredM : decodeStepFull d prev w out M code =
              Except.error (out ++ (seqBytes d code).take (M - out.length)) := by
            rw [decodeStepFull, if_neg hprev]
            simp only [if_neg hge, hosM]
            rfl
          refine ⟨_, hredM, ?_⟩
          rw [take_append_of_length_le (by omega), List.take_take]
          congr 2
          omega

theorem decodeLoop_trunc :
    ∀ (fuel : Nat) (r : BitStreamReader) (d : Dictionary) (prev fb : Int) (w : Nat)
      (out : List Nat) (N M : Nat), N ≤ M → out.length ≤ N →
      lzwDecodeLoop fuel r d prev fb w out N =
        (lzwDecodeLoop fuel r d prev fb w out M).take N := by
  intro fuel
  induction fuel with
  | zero =>
    intro r d prev fb w out N M hNM hout
    simp [lzwDecodeLoop, List.take_of_length_le hout]
  | succ fuel ih =>
    intro r d prev fb w out N M hNM hout
    rw [lzwDecodeLoop_succ, lzwDecodeLoop_succ]
    by_cases hend : r.isEndOfStream
    · rw [if_pos hend, if_pos hend, List.take_of_length_le hout]
    · rw [if_neg hend, if_neg hend]
      rcases decodeStepFull_trunc d prev w out (Int.ofNat (r.readBitsU64 w).1) N M
          hNM hout with ⟨heq, hne, hok⟩ | ⟨oN, hN, hlenN, hrest⟩
      · rcases hs : decodeStepFull d prev w out N (Int.ofNat (r.readBitsU64 w).1) with
          o | ⟨d', p', fb', w', out', rec⟩
        · exact absurd hs (hne o)
        · rw [hs] at heq
          rw [← heq]
          show lzwDecodeLoop fuel (r.readBitsU64 w).2 d' p' fb' w' out' N =
            (lzwDecodeLoop fuel (r.readBitsU64 w).2 d' p' fb' w' out' M).take N
          exact ih (r.readBitsU64 w).2 d' p' fb' w' out' N M hNM
            (hok d' p' fb' w' out' rec hs)
      · rw [hN]
        rcases hrest with ⟨oM, hM, htake⟩ | ⟨hneM, hokM⟩
        · rw [hM]
          exact htake
        · rcases hsM : decodeStepFull d prev w out M (Int.ofNat (r.readBitsU64 w).1) with
            o | ⟨d', p', fb', w', out', rec⟩
          · exact absurd hsM (hneM o)
          · obtain ⟨hge, htake⟩ := hokM d' p' fb' w' out' rec hsM
            show oN = (lzwDecodeLoop fuel (r.readBitsU64 w).2 d' p' fb' w' out' M).take N
            obtain ⟨t, ht⟩ := decodeLoop_extends fuel (r.readBitsU64 w).2 d' p' fb' w'
              out' M
            rw [ht, List.take_append_eq_append_take]
            have hz : N - out'.length = 0 := by omega
            simp [hz, htake]

/-- C3: with output capacity `N` at most the capacity `M`, `lzwDecode` returns
    exactly the first `N` bytes of the `M`-capacity decode, never holds more than
    `N` bytes, and reaching the capacity yields exactly `N` bytes (capacity is not
    an error: a full list, not an error value, is returned). -/
theorem lzw_output_truncation (stream : Nat → Nat) (bytes bits N M : Nat)
    (hNM : N ≤ M) :
    lzwDecode stream bytes bits N = (lzwDecode stream bytes bits M).take N ∧
    (lzwDecode stream bytes bits N).length ≤ N ∧
    (N ≤ (lzwDecode stream bytes bits M).length →
      (lzwDecode stream bytes bits N).length = N) := by
  have h := decodeLoop_trunc (bits + 1) (BitStreamReader.mk0 stream bytes bits)
    Dictionary.init Nil 0 StartBits [] N M hNM (by simp)
  have h' : lzwDecode stream bytes bits N = (lzwDecode stream bytes bits M).take N := h
  refine ⟨h', ?_, ?_⟩
  · rw [h', List.length_take]
    exact Nat.min_le_left _ _
  · intro hle
    rw [h', List.length_take]
    omega

theorem lzw_output_truncation_witness :
    1 ≤ 2 ∧
    (lzwDecode (fun _ => 0) 2 16 1 = (lzwDecode (fun _ => 0) 2 16 2).take 1 ∧
     (lzwDecode (fun _ => 0) 2 16 1).length ≤ 1 ∧
     (1 ≤ (lzwDecode (fun _ => 0) 2 16 2).length →
       (lzwDecode (fun _ => 0) 2 16 1).length = 1)) :=
  ⟨by decide, lzw_output_truncation (fun _ => 0) 2 16 1 2 (by decide)⟩

/-! ## Truncated input -/

theorem readBitsGo_succ (m b num : Nat) (r : BitStreamReader) :
    BitStreamReader.readBitsGo (m + 1) b num r =
      match r.readNextBit with
      | none => (num, r)
      | some (bit, r') =>
        BitStreamReader.readBitsGo m (b + 1)
          ((num &&& ((2 ^ 64 - 1) ^^^ 2 ^ b)) ||| (if bit ≠ 0 then 2 ^ b else 0)) r' :=
  rfl

theorem readNextBit_congr (r : BitStreamReader) (s2 : Nat → Nat) (hwf : WFr r)
    (hag : ∀ i, 8 * i < r.sizeInBits → r.stream i = s2 i) :
    (setStream r s2).readNextBit =
      Option.map (fun p : Nat × BitStreamReader => (p.1, setStream p.2 s2))
        r.readNextBit := by
  obtain ⟨h8, hpos⟩ := hwf
  by_cases hend : r.sizeInBits ≤ r.numBitsRead
  · rw [BitStreamReader.readNextBit_none (show (setStream r s2).sizeInBits ≤
      (setStream r s2).numBitsRead from hend),
      BitStreamReader.readNextBit_none hend]
    rfl
  · have hbyte : s2 r.currBytePos = r.stream r.currBytePos :=
      (hag r.currBytePos (by omega)).symm
    show BitStreamReader.readNextBit ⟨s2, r.sizeInBytes, r.sizeInBits, r.currBytePos,
      r.nextBitPos, r.numBitsRead⟩ = _
    simp only [BitStreamReader.readNextBit]
    rw [if_neg (by omega : ¬ r.numBitsRead ≥ r.sizeInBits)]
    simp only [hbyte]
    by_cases hc : r.nextBitPos + 1 = 8 <;> simp [hc, setStream, hend]

theorem readBitsGo_congr :
    ∀ (m b num : Nat) (r : BitStreamReader) (s2 : Nat → Nat), WFr r →
      (∀ i, 8 * i < r.sizeInBits → r.stream i = s2 i) →
      (BitStreamReader.readBitsGo m b num (setStream r s2)).1 =
        (BitStreamReader.readBitsGo m b num r).1 ∧
      (BitStreamReader.readBitsGo m b num (setStream r s2)).2 =
        setStream (BitStreamReader.readBitsGo m b num r).2 s2 := by
  intro m
  induction m with
  | zero =>
    intro b num r s2 hwf hag
    exact ⟨rfl, rfl⟩
  | succ m ih =>
    intro b num r s2 hwf hag
    by_cases hend : r.numBitsRead < r.sizeInBits
    · obtain ⟨r', hread, hstream, hbytes, hbits, hnbr, hbp, hwf'⟩ :=
        BitStreamReader.readNextBit_spec hwf hend
      have hcong := readNextBit_congr r s2 hwf hag
      rw [hread] at hcong
      simp only [Option.map] at hcong
      have hag' : ∀ i, 8 * i < r'.sizeInBits → r'.stream i = s2 i := by
        intro i hi
        rw [hstream]
        exact hag i (by rw [hbits] at hi; exact hi)
      rw [readBitsGo_succ, readBitsGo_succ, hread, hcong]
      exact ih _ _ r' s2 hwf' hag'
    · have hn : r.readNextBit = none :=
        BitStreamReader.readNextBit_none (by omega)
      have hcong := readNextBit_congr r s2 hwf hag
      rw [hn] at hcong
      simp only [Option.map] at hcong
      rw [readBitsGo_succ, readBitsGo_succ, hn, hcong]
      exact ⟨rfl, rfl⟩

theorem readBitsU64_congr (r : BitStreamReader) (s2 : Nat → Nat) (w : Nat)
    (hwf : WFr r) (hag : ∀ i, 8 * i < r.sizeInBits → r.stream i = s2 i) :
    ((setStream r s2).readBitsU64 w).1 = (r.readBitsU64 w).1 ∧
    ((setStream r s2).readBitsU64 w).2 = setStream (r.readBitsU64 w).2 s2 :=
  readBitsGo_congr w 0 0 r s2 hwf hag

theorem decodeLoop_congr :
    ∀ (fuel : Nat) (r : BitStreamReader) (d : Dictionary) (prev fb : Int) (w : Nat)
      (out : List Nat) (cap : Nat) (s2 : Nat → Nat), WFr r →
      (∀ i, 8 * i < r.sizeInBits → r.stream i = s2 i) →
      lzwDecodeLoop fuel (setStream r s2) d prev fb w out cap =
        lzwDecodeLoop fuel r d prev fb w out cap := by
  intro fuel
  induction fuel with
  | zero =>
    intro r d prev fb w out cap s2 hwf hag
    rfl
  | succ fuel ih =>
    intro r d prev fb w out cap s2 hwf hag
    rw [lzwDecodeLoop_succ, lzwDecodeLoop_succ]
    have hendeq : (setStream r s2).isEndOfStream = r.isEndOfStream := rfl
    rw [hendeq]
    by_cases hend : r.isEndOfStream
    · rw [if_pos hend, if_pos hend]
    · rw [if_neg hend, if_neg hend]
      obtain ⟨hv, hr⟩ := readBitsU64_congr r s2 w hwf hag
      rw [hv, hr]
      obtain ⟨hstream, hbytes, hbits, hnbr, hwf'⟩ :=
        BitStreamReader.readBitsGo_reader w 0 0 r hwf
      have hag' : ∀ i, 8 * i < (r.readBitsU64 w).2.sizeInBits →
          (r.readBitsU64 w).2.stream i = s2 i := by
        intro i hi
        rw [show (r.readBitsU64 w).2.stream = r.stream from hstream]
        exact hag i (by
          rw [show (r.readBitsU64 w).2.sizeInBits = r.sizeInBits from hbits] at hi
          exact hi)
      rcases hs : decodeStepFull d prev w out cap (Int.ofNat (r.readBitsU64 w).1) with
        o | ⟨d', p', fb', w', out', rec⟩
      · rfl
      · exact ih (r.readBitsU64 w).2 d' p' fb' w' out' cap s2 hwf' hag'

theorem decodeLoop_length (fuel : Nat) (r : BitStreamReader) (d : Dictionary)
    (prev fb : Int) (w : Nat) (out : List Nat) (cap : Nat)
    (hout : out.length ≤ cap) :
    (lzwDecodeLoop fuel r d prev fb w out cap).length ≤ cap := by
  have h := decodeLoop_trunc fuel r d prev fb w out cap cap (le_refl cap) hout
  have h2 := congrArg List.length h
  rw [List.length_take] at h2
  omega

/-- C7 counterexample: for the stream produced by encoding `[5,5,5,5]`
    (27 compressed bits), decoding with `compressedBits = 20 < 27` — fewer
    bits than a full decode needs — still returns `expectedOutputBytes = 4`
    bytes (the wrong bytes `[5,5,5,1]`), not fewer than expected, so a short
    result is not a reliable signal of truncated input. -/
theorem lzw_truncated_input_counterexample :
    (lzwEncode [5, 5, 5, 5]).2.2 = 27 ∧
    lzwDecode (lzwEncode [5, 5, 5, 5]).1 4 27 4 = [5, 5, 5, 5] ∧
    lzwDecode (lzwEncode [5, 5, 5, 5]).1 4 20 4 = [5, 5, 5, 1] ∧
    ¬ (lzwDecode (lzwEncode [5, 5, 5, 5]).1 4 20 4).length < 4 := by
  refine ⟨?_, ?_, ?_, ?_⟩ <;> decide

/-- C7 (amended): decoding with a truncated bit budget is not an error — the
    decoder still returns a byte list; it never reads the input stream past
    `compressedBits` (the result only depends on bits below `compressedBits`,
    stated as congruence in the backing stream), and it never returns more
    than `expectedOutputBytes` bytes — but it may return exactly
    `expectedOutputBytes` bytes rather than fewer. -/
theorem lzw_truncated_input (stream stream2 : Nat → Nat) (bytes bits N : Nat)
    (hagree : ∀ i, 8 * i < bits → stream i = stream2 i) :
    lzwDecode stream bytes bits N = lzwDecode stream2 bytes bits N ∧
    (lzwDecode stream bytes bits N).length ≤ N := by
  constructor
  · have h := decodeLoop_congr (bits + 1) (BitStreamReader.mk0 stream2 bytes bits)
      Dictionary.init Nil 0 StartBits [] N stream (wfr_mk0 stream2 bytes bits)
      (fun i hi => (hagree i hi).symm)
    exact h
  · exact decodeLoop_length (bits + 1) (BitStreamReader.mk0 stream bytes bits)
      Dictionary.init Nil 0 StartBits [] N (by simp)

theorem lzw_truncated_input_witness :
    lzwDecode (fun _ => 5) 2 16 3 =
      lzwDecode (fun i => if i ≤ 1 then 5 else 9) 2 16 3 ∧
    (lzwDecode (fun _ => 5) 2 16 3).length ≤ 3 :=
  lzw_truncated_input (fun _ => 5) (fun i => if i ≤ 1 then 5 else 9) 2 16 3
    (fun i hi => by
      have h1 : i ≤ 1 := by omega
      simp [h1])

/-! ## Round trip: encoder emission trace -/

theorem appendEmits_append (l1 l2 : List (Int × Nat)) :
    ∀ bs, appendEmits bs (l1 ++ l2) = appendEmits (appendEmits bs l1) l2 := by
  induction l1 with
  | nil => intro bs; rfl
  | cons e rest ih =>
    intro bs
    show appendEmits (bs.appendBitsU64 e.1.toNat e.2) (rest ++ l2) = _
    rw [ih]
    rfl

theorem lzwEncodeLoop_split :
    ∀ (input : List Nat) (code : Int) (w : Nat) (d : Dictionary) (bs : BitStreamWriter),
      lzwEncodeLoop input code w d bs =
        ((encSt input code w d).1, (encSt input code w d).2.1,
         (encSt input code w d).2.2,
         appendEmits bs (emCW (encEmits input code w d))) := by
  intro input
  induction input with
  | nil => intro code w d bs; rfl
  | cons v rest ih =>
    intro code w d bs
    show (if d.findIndex code (Int.ofNat v) ≠ Nil then
        lzwEncodeLoop rest (d.findIndex code (Int.ofNat v)) w d bs
      else
        lzwEncodeLoop rest (Int.ofNat v) (d.flush w).2.1
          (if (d.flush w).1 then (d.flush w).2.2
            else (d.flush w).2.2.add code (Int.ofNat v))
          (bs.appendBitsU64 code.toNat w)) = _
    by_cases hidx : d.findIndex code (Int.ofNat v) ≠ Nil
    · rw [if_pos hidx, ih]
      have h1 : encSt (v :: rest) code w d =
          encSt rest (d.findIndex code (Int.ofNat v)) w d := by
        rw [encSt]
        simp only [if_pos hidx]
      have h2 : encEmits (v :: rest) code w d =
          encEmits rest (d.findIndex code (Int.ofNat v)) w d := by
        rw [encEmits]
        simp only [if_pos hidx]
      rw [h1, h2]
    · rw [if_neg hidx, ih]
      have h1 : encSt (v :: rest) code w d =
          encSt rest (Int.ofNat v) (d.flush w).2.1
            (if (d.flush w).1 then (d.flush w).2.2
              else (d.flush w).2.2.add code (Int.ofNat v)) := by
        rw [encSt]
        simp only [if_neg hidx]
      have h2 : encEmits (v :: rest) code w d =
          (code, w, d.size) ::
            encEmits rest (Int.ofNat v) (d.flush w).2.1
              (if (d.flush w).1 then (d.flush w).2.2
                else (d.flush w).2.2.add code (Int.ofNat v)) := by
        rw [encEmits]
        simp only [if_neg hidx]
      rw [h1, h2]
      rfl

theorem lzwEncode_emits (S : List Nat) :
    lzwEncode S =
      ((appendEmits BitStreamWriter.init
          (emCW (emsOf S Nil StartBits Dictionary.init))).stream,
       (appendEmits BitStreamWriter.init
          (emCW (emsOf S Nil StartBits Dictionary.init))).getByteCount,
       (appendEmits BitStreamWriter.init
          (emCW (emsOf S Nil StartBits Dictionary.init))).numBitsWritten) := by
  rw [lzwEncode]
  simp only [lzwEncodeLoop_split]
  by_cases hres : (encSt S Nil StartBits Dictionary.init).1 ≠ Nil
  · simp only [if_pos hres, emsOf, encResidual, emCW, List.map_append,
      appendEmits_append]
    rfl
  · simp only [if_neg hres, emsOf, encResidual, if_neg hres, emCW, List.map_append,
      appendEmits_append]
    rfl

theorem appendEmits_spec :
    ∀ (E : List (Int × Nat)) (bs : BitStreamWriter), WFw bs →
      (∀ e ∈ E, e.1.toNat < 2 ^ e.2) →
      WFw (appendEmits bs E) ∧
      (appendEmits bs E).numBitsWritten = bs.numBitsWritten + widthSum E ∧
      (∀ p, p < bs.numBitsWritten →
        bitOfBuf (appendEmits bs E).stream p = bitOfBuf bs.stream p) ∧
      EncodesFrom (appendEmits bs E).stream bs.numBitsWritten E := by
  intro E
  induction E with
  | nil =>
    intro bs hwf _
    exact ⟨hwf, by simp [appendEmits, widthSum], fun p _ => rfl, trivial⟩
  | cons e rest ih =>
    intro bs hwf hbound
    obtain ⟨hwf', hnum', hkeep', hbits'⟩ :=
      BitStreamWriter.appendBitsU64_spec hwf e.1.toNat e.2
    obtain ⟨hwfF, hnumF, hkeepF, hencF⟩ :=
      ih (bs.appendBitsU64 e.1.toNat e.2) hwf'
        (fun x hx => hbound x (List.mem_cons_of_mem _ hx))
    have hstep : appendEmits bs (e :: rest) =
        appendEmits (bs.appendBitsU64 e.1.toNat e.2) rest := rfl
    rw [hstep]
    refine ⟨hwfF, ?_, ?_, ?_, ?_⟩
    · rw [hnumF, hnum', widthSum, widthSum]
      simp
      omega
    · intro p hp
      rw [hkeepF p (by omega), hkeep' p hp]
    · have hval : valFromBits (appendEmits (bs.appendBitsU64 e.1.toNat e.2) rest).stream
          bs.numBitsWritten e.2 = e.1.toNat := by
        have heach : ∀ k, k < e.2 →
            bitOfBuf (appendEmits (bs.appendBitsU64 e.1.toNat e.2) rest).stream
              (bs.numBitsWritten + k) = (e.1.toNat).testBit k := by
          intro k hk
          rw [hkeepF (bs.numBitsWritten + k) (by omega)]
          exact hbits' k hk
        rw [valFromBits_eq_mod e.2 e.1.toNat _ bs.numBitsWritten heach]
        exact Nat.mod_eq_of_lt (hbound e (List.mem_cons_self _ _))
      exact hval
    · have hnb : bs.numBitsWritten + e.2 =
          (bs.appendBitsU64 e.1.toNat e.2).numBitsWritten := hnum'.symm
      rw [hnb]
      exact hencF

/-! ## Encoder/decoder synchronisation: helper lemmas -/

theorem flush_spec (d : Dictionary) (w : Nat) :
    (d.size = 2 ^ w ∧ MaxDictBits < w + 1 ∧
      d.flush w = (true, StartBits, { d with size := FirstCode })) ∨
    (d.size = 2 ^ w ∧ w + 1 ≤ MaxDictBits ∧ d.flush w = (false, w + 1, d)) ∨
    (d.size ≠ 2 ^ w ∧ d.flush w = (false, w, d)) := by
  rw [Dictionary.flush]
  by_cases hs : d.size = 2 ^ w
  · by_cases hw : w + 1 > MaxDictBits
    · exact Or.inl ⟨hs, hw, by rw [if_pos hs, if_pos hw]⟩
    · exact Or.inr (Or.inl ⟨hs, by omega, by rw [if_pos hs, if_neg hw]⟩)
  · exact Or.inr (Or.inr ⟨hs, by rw [if_neg hs]⟩)

theorem dict_add_size (d : Dictionary) (c v : Int) (h : d.size ≠ MaxDictEntries) :
    (d.add c v).size = d.size + 1 := by
  rw [Dictionary.add, if_neg h]

theorem dict_add_entries_lt (d : Dictionary) (c v : Int) (h : d.size ≠ MaxDictEntries)
    (i : Nat) (hi : i ≠ d.size) : (d.add c v).entries i = d.entries i := by
  rw [Dictionary.add, if_neg h]
  simp only [if_neg hi]

theorem dict_add_entries_eq (d : Dictionary) (c v : Int)
    (h : d.size ≠ MaxDictEntries) : (d.add c v).entries d.size = ⟨c, v⟩ := by
  rw [Dictionary.add, if_neg h]
  simp

theorem findIndex_nil_code (d : Dictionary) (v : Int) : d.findIndex Nil v = v := by
  rw [Dictionary.findIndex, if_pos rfl]

theorem findIndex_found (d : Dictionary) (code v : Int) (hcode : code ≠ Nil)
    (hfound : d.findIndex code v ≠ Nil) :
    0 ≤ d.findIndex code v ∧ d.findIndex code v < (d.size : Int) ∧
    d.entries (d.findIndex code v).toNat = ⟨code, v⟩ := by
  rw [Dictionary.findIndex, if_neg hcode] at hfound ⊢
  rcases hfind : (List.range d.size).find?
      (fun i => (d.entries i).code == code && (d.entries i).value == v) with _ | i
  · rw [hfind] at hfound
    exact absurd rfl hfound
  · dsimp only
    have hmem := List.mem_range.mp (List.mem_of_find?_eq_some hfind)
    have hpred := List.find?_some hfind
    simp only [Bool.and_eq_true, beq_iff_eq] at hpred
    refine ⟨by rw [Int.ofNat_eq_coe]; exact_mod_cast Nat.zero_le i,
      by rw [Int.ofNat_eq_coe]; exact_mod_cast hmem, ?_⟩
    have ht : (Int.ofNat i).toNat = i := by
      rw [Int.ofNat_eq_coe, Int.toNat_ofNat]
    rw [ht]
    rcases hent : d.entries i with ⟨ec, ev⟩
    rw [hent] at hpred
    simp only [] at hpred
    rw [hpred.1, hpred.2]

theorem findIndex_fresh (d : Dictionary) (hwf : DictWF d) (hsz : d.size = 256)
    (code v : Int) (h0 : 0 ≤ code) : d.findIndex code v = Nil := by
  rw [Dictionary.findIndex, if_neg (by rw [Nil]; omega)]
  have hnone : (List.range d.size).find?
      (fun i => (d.entries i).code == code && (d.entries i).value == v) = none := by
    rw [List.find?_eq_none]
    intro i hi
    have hilt : i < 256 := by rw [List.mem_range, hsz] at hi; exact hi
    have hroot := hwf.2.2.1 i (by
      simp only [FirstCode, StartBits]
      omega)
    rw [hroot]
    simp only [Bool.and_eq_true, beq_iff_eq]
    rintro ⟨h1, _⟩
    rw [Nil] at h1
    omega
  rw [hnone]

theorem headD_mem {l : List Int} (h : l ≠ []) (x : Int) : l.headD x ∈ l := by
  cases l with
  | nil => exact absurd rfl h
  | cons a t => simp

theorem phrase_congr (dE dD : Dictionary) (hwfD : DictWF dD)
    (hag : ∀ i, i < dD.size → dE.entries i = dD.entries i)
    (c : Int) (h0 : 0 ≤ c) (hlt : c < (dD.size : Int)) :
    phrase dE c = phrase dD c := by
  rw [phrase, phrase]
  congr 1
  have hsz := hwfD.2.1
  have hsz4096 : dD.size ≤ 4096 := by
    simpa [MaxDictEntries, MaxDictBits] using hsz
  apply collectSequence_congr dD dE hwfD c.toNat c MaxDictEntries MaxDictEntries
      h0 hlt (le_refl _)
  · show c.toNat < 2 ^ MaxDictBits
    norm_num [MaxDictBits]
    omega
  · show c.toNat < 2 ^ MaxDictBits
    norm_num [MaxDictBits]
    omega
  · intro j hj
    exact hag j (by omega)

theorem phrase_values (d : Dictionary) (c : Int) :
    ∀ x ∈ phrase d c, 0 ≤ x ∧ x < 256 := by
  intro x hx
  exact collectSequence_values d MaxDictEntries c x (List.mem_reverse.mp hx)

/-- Encoder miss-step preservation: flushing then (conditionally) adding
    preserves the dictionary/width invariants. -/
theorem encMiss_preserve (dE : Dictionary) (codeE : Int) (w : Nat) (v : Nat)
    (hwf : DictWF dE) (h0 : 0 ≤ codeE) (hlt : codeE < (dE.size : Int))
    (hv : v < 256) (hw9 : 9 ≤ w) (hw12 : w ≤ 12) (hsz : dE.size ≤ 2 ^ w) :
    DictWF (if (dE.flush w).1 then (dE.flush w).2.2
      else (dE.flush w).2.2.add codeE (Int.ofNat v)) ∧
    9 ≤ (dE.flush w).2.1 ∧ (dE.flush w).2.1 ≤ 12 ∧
    (if (dE.flush w).1 then (dE.flush w).2.2
      else (dE.flush w).2.2.add codeE (Int.ofNat v)).size ≤ 2 ^ (dE.flush w).2.1 := by
  have hnotfull : dE.size ≠ MaxDictEntries ∨ (dE.size = 2 ^ w ∧ w = 12) := by
    by_cases hfull : dE.size = MaxDictEntries
    · right
      constructor
      · have h2w : 2 ^ w ≤ 2 ^ 12 := Nat.pow_le_pow_right (by norm_num) hw12
        simp only [MaxDictEntries, MaxDictBits] at hfull
        norm_num at h2w
        omega
      · have h2 : 2 ^ 12 ≤ 2 ^ w := by
          simp only [MaxDictEntries, MaxDictBits] at hfull
          omega
        have := Nat.pow_le_pow_iff_right (a := 2) (by norm_num) |>.mp h2
        omega
    · left
      exact hfull
  rcases flush_spec dE w with ⟨hs, hwb, hfl⟩ | ⟨hs, hwb, hfl⟩ | ⟨hs, hfl⟩
  · rw [hfl]
    dsimp only
    refine ⟨dictWF_reset hwf, by norm_num [StartBits], by norm_num [StartBits], ?_⟩
    show FirstCode ≤ 2 ^ StartBits
    norm_num [FirstCode, StartBits]
  · rw [hfl]
    dsimp only
    have hfull : dE.size ≠ MaxDictEntries := by
      rcases hnotfull with h | ⟨_, hw'⟩
      · exact h
      · simp only [MaxDictBits] at hwb
        omega
    refine ⟨dictWF_add hwf h0 hlt (by rw [Int.ofNat_eq_coe]; exact_mod_cast Nat.zero_le v) (by rw [Int.ofNat_eq_coe]; exact_mod_cast hv), ?_, ?_, ?_⟩
    · omega
    · simp only [MaxDictBits] at hwb
      omega
    · rw [if_neg (by simp : ¬ (false = true)), dict_add_size _ _ _ hfull, hs]
      have h2w : (2 : Nat) ^ w < 2 ^ (w + 1) := by
        have hp : 0 < 2 ^ w := Nat.pow_pos (by norm_num)
        omega
      omega
  · rw [hfl]
    dsimp only
    have hfull : dE.size ≠ MaxDictEntries := by
      rcases hnotfull with h | ⟨h2, _⟩
      · exact h
      · exact absurd h2 hs
    refine ⟨dictWF_add hwf h0 hlt (by rw [Int.ofNat_eq_coe]; exact_mod_cast Nat.zero_le v) (by rw [Int.ofNat_eq_coe]; exact_mod_cast hv), hw9, hw12, ?_⟩
    rw [if_neg (by simp : ¬ (false = true)), dict_add_size _ _ _ hfull]
    omega

theorem headD_append {l1 : List Int} (l2 : List Int) (h : l1 ≠ []) (x : Int) :
    (l1 ++ l2).headD x = l1.headD x := by
  cases l1 with
  | nil => exact absurd rfl h
  | cons a t => rfl

/-- Decoder literal step: first code of an epoch. -/
theorem rootStep (dD : Dictionary) (codeE : Int) (w : Nat) (outD : List Nat)
    (cap : Nat) (hc0 : 0 ≤ codeE) (hc : codeE < 256) (hlen : outD.length < cap) :
    decodeStepFull dD Nil w outD cap codeE =
      Except.ok (dD, codeE, codeE, w, outD ++ [codeE.toNat], (dD.size, w)) := by
  rw [decodeStepFull, if_pos rfl]
  have hw : outputByte codeE outD cap = some (outD ++ [(codeE % 256).toNat]) := by
    rw [outputByte, if_neg (by omega)]
  rw [hw]
  have hm : codeE % 256 = codeE := Int.emod_eq_of_lt hc0 hc
  rw [hm]

/-- Decoder mid-stream step: with the decoder's dictionary lagging the
    encoder's by exactly the pending entry, the step outputs the phrase the
    encoder's dictionary assigns to the received code, records the
    encoder-side (size, width) pair, and catches the dictionary up. -/
theorem midStep (dE dD : Dictionary) (codeE prevD : Int) (w : Nat)
    (outD : List Nat) (cap : Nat)
    (hwfE : DictWF dE) (hwfD : DictWF dD)
    (hc0 : 0 ≤ codeE) (hcs : codeE < (dE.size : Int))
    (hp0 : 0 ≤ prevD) (hps : prevD < (dD.size : Int))
    (hsz : dE.size = dD.size + 1)
    (hag : ∀ i, i < dD.size → dE.entries i = dD.entries i)
    (hpend : dE.entries dD.size = ⟨prevD, (phrase dE codeE).headD 0⟩)
    (hcap : outD.length + (phraseN dE codeE).length ≤ cap) :
    decodeStepFull dD prevD w outD cap codeE =
      Except.ok
        (((dD.add prevD ((phrase dE codeE).headD 0)).flush w).2.2,
         (if ((dD.add prevD ((phrase dE codeE).headD 0)).flush w).1 then Nil
           else codeE),
         (phrase dE codeE).headD 0,
         ((dD.add prevD ((phrase dE codeE).headD 0)).flush w).2.1,
         outD ++ phraseN dE codeE,
         (dE.size, w)) ∧
    (dD.add prevD ((phrase dE codeE).headD 0)).size = dE.size ∧
    (∀ i, i < dE.size →
      (dD.add prevD ((phrase dE codeE).headD 0)).entries i = dE.entries i) ∧
    DictWF (dD.add prevD ((phrase dE codeE).headD 0)) := by
  have hfbbyte : 0 ≤ (phrase dE codeE).headD 0 ∧ (phrase dE codeE).headD 0 < 256 :=
    phrase_values dE codeE _ (headD_mem (phrase_ne_nil _ _) 0)
  have hprevNil : ¬ (prevD = Nil) := by rw [Nil]; omega
  have hDfull : dD.size ≠ MaxDictEntries := by
    have h2 := hwfE.2.1
    simp only [MaxDictEntries, MaxDictBits] at h2 ⊢
    omega
  have haddsz : (dD.add prevD ((phrase dE codeE).headD 0)).size = dE.size := by
    rw [dict_add_size _ _ _ hDfull, hsz]
  have haddag : ∀ i, i < dE.size →
      (dD.add prevD ((phrase dE codeE).headD 0)).entries i = dE.entries i := by
    intro i hi
    by_cases hie : i = dD.size
    · subst hie
      rw [dict_add_entries_eq _ _ _ hDfull, hpend]
    · rw [dict_add_entries_lt _ _ _ hDfull i hie, hag i (by omega)]
  have haddwf : DictWF (dD.add prevD ((phrase dE codeE).headD 0)) :=
    dictWF_add hwfD hp0 hps hfbbyte.1 hfbbyte.2
  refine ⟨?_, haddsz, haddag, haddwf⟩
  have hlenN : (phraseN dE codeE).length = (phrase dE codeE).length :=
    List.length_map _ _
  by_cases hXL : codeE < (dD.size : Int)
  · -- normal path
    have hphr : phrase dE codeE = phrase dD codeE :=
      phrase_congr dE dD hwfD hag codeE hc0 hXL
    have hcapD : outD.length + (phraseN dD codeE).length ≤ cap := by
      rw [phraseN, ← hphr, ← phraseN]
      exact hcap
    have hos := outputSequence_ok dD hwfD codeE hc0 hXL outD cap hcapD
    rw [decodeStepFull, if_neg hprevNil]
    simp only [if_neg (not_le.mpr hXL), hos]
    have houteq : outD ++ phraseN dD codeE = outD ++ phraseN dE codeE := by
      rw [phraseN, ← hphr, ← phraseN]
    have hfbeq : (phrase dD codeE).headD 0 = (phrase dE codeE).headD 0 := by
      rw [← hphr]
    rw [houteq, hfbeq]
    simp only [if_true]
    by_cases hflush : ((dD.add prevD ((phrase dE codeE).headD 0)).flush w).1 = true
    · rw [if_pos hflush, if_pos hflush, haddsz]
    · rw [if_neg hflush, if_neg hflush, haddsz]
  · -- KwKwK path
    have hceq : codeE = (dD.size : Int) := by omega
    have hjf : FirstCode ≤ dD.size := hwfD.1
    have hjs : dD.size < dE.size := by omega
    set hb := (phrase dE codeE).headD 0 with hhb
    have hchild := phrase_child dE hwfE dD.size hjf hjs
    have hofn : Int.ofNat dD.size = codeE := by
      rw [Int.ofNat_eq_coe, hceq]
    rw [hofn, hpend] at hchild
    have hphrp : phrase dE prevD = phrase dD prevD :=
      phrase_congr dE dD hwfD hag prevD hp0 hps
    have hfb : (phrase dD prevD).headD 0 = hb := by
      rw [hhb]
      conv_rhs => rw [hchild]
      rw [headD_append _ (phrase_ne_nil _ _) 0, hphrp]
    have hlensplit : (phrase dE codeE).length = (phrase dD prevD).length + 1 := by
      rw [hchild, hphrp]
      simp
    have hlenP : (phraseN dD prevD).length = (phrase dD prevD).length :=
      List.length_map _ _
    have hcapP : outD.length + (phraseN dD prevD).length ≤ cap := by omega
    have hos := outputSequence_ok dD hwfD prevD hp0 hps outD cap hcapP
    have hwByte : outputByte ((phrase dD prevD).headD 0) (outD ++ phraseN dD prevD)
        cap = some ((outD ++ phraseN dD prevD) ++
          [(((phrase dD prevD).headD 0) % 256).toNat]) := by
      rw [outputByte, if_neg (by simp only [List.length_append]; omega)]
    have hfbb : 0 ≤ (phrase dD prevD).headD 0 ∧ (phrase dD prevD).headD 0 < 256 :=
      phrase_values dD prevD _ (headD_mem (phrase_ne_nil _ _) 0)
    have hmod : ((phrase dD prevD).headD 0) % 256 = (phrase dD prevD).headD 0 :=
      Int.emod_eq_of_lt hfbb.1 hfbb.2
    have houteq : (outD ++ phraseN dD prevD) ++
        [(((phrase dD prevD).headD 0) % 256).toNat] = outD ++ phraseN dE codeE := by
      rw [hmod, List.append_assoc]
      congr 1
      rw [show phraseN dE codeE = (phrase dE codeE).map Int.toNat from rfl, hchild,
        List.map_append]
      rw [show phraseN dD prevD = (phrase dD prevD).map Int.toNat from rfl, hphrp]
      congr 1
      simp only [List.map_cons, List.map_nil]
      rw [hfb]
    have hge : codeE ≥ ((dD.size : Nat) : Int) := by omega
    rw [decodeStepFull, if_neg hprevNil]
    simp only [if_pos hge, hos, hwByte]
    rw [houteq, hfb]
    simp only [if_true]
    by_cases hflush : ((dD.add prevD hb).flush w).1 = true
    · rw [if_pos hflush, if_pos hflush, haddsz]
    · rw [if_neg hflush, if_neg hflush, haddsz]

/-! ## The coupled simulation invariant -/

theorem emsOf_nil (code : Int) (w : Nat) (d : Dictionary) :
    emsOf [] code w d = encResidual (code, w, d) := rfl

theorem emsOf_match (v : Nat) (rest : List Nat) (code : Int) (w : Nat)
    (d : Dictionary) (hidx : d.findIndex code (Int.ofNat v) ≠ Nil) :
    emsOf (v :: rest) code w d = emsOf rest (d.findIndex code (Int.ofNat v)) w d := by
  rw [emsOf, emsOf]
  have h1 : encSt (v :: rest) code w d =
      encSt rest (d.findIndex code (Int.ofNat v)) w d := by
    rw [encSt]
    simp only [if_pos hidx]
  have h2 : encEmits (v :: rest) code w d =
      encEmits rest (d.findIndex code (Int.ofNat v)) w d := by
    rw [encEmits]
    simp only [if_pos hidx]
  rw [h1, h2]

theorem emsOf_miss (v : Nat) (rest : List Nat) (code : Int) (w : Nat)
    (d : Dictionary) (hidx : ¬ d.findIndex code (Int.ofNat v) ≠ Nil) :
    emsOf (v :: rest) code w d =
      (code, w, d.size) ::
        emsOf rest (Int.ofNat v) (d.flush w).2.1
          (if (d.flush w).1 then (d.flush w).2.2
            else (d.flush w).2.2.add code (Int.ofNat v)) := by
  rw [emsOf, emsOf]
  have h1 : encSt (v :: rest) code w d =
      encSt rest (Int.ofNat v) (d.flush w).2.1
        (if (d.flush w).1 then (d.flush w).2.2
          else (d.flush w).2.2.add code (Int.ofNat v)) := by
    rw [encSt]
    simp only [if_neg hidx]
  have h2 : encEmits (v :: rest) code w d =
      (code, w, d.size) ::
        encEmits rest (Int.ofNat v) (d.flush w).2.1
          (if (d.flush w).1 then (d.flush w).2.2
            else (d.flush w).2.2.add code (Int.ofNat v)) := by
    rw [encEmits]
    simp only [if_neg hidx]
  rw [h1, h2]
  rfl

theorem lzwDecodeLoopTr_succ (fuel : Nat) (r : BitStreamReader) (d : Dictionary)
    (prev fb : Int) (w : Nat) (out : List Nat) (cap : Nat)
    (acc : List (Nat × Nat)) :
    lzwDecodeLoopTr (fuel + 1) r d prev fb w out cap acc =
      if r.isEndOfStream then (out, acc)
      else
        match decodeStepFull d prev w out cap (Int.ofNat (r.readBitsU64 w).1) with
        | Except.error o => (o, acc)
        | Except.ok (d', p', fb', w', out', rec) =>
          lzwDecodeLoopTr fuel (r.readBitsU64 w).2 d' p' fb' w' out' cap
            (acc ++ [rec]) := rfl

theorem atEnd (r : BitStreamReader) (h : r.sizeInBits ≤ r.numBitsRead) :
    r.isEndOfStream = true := by
  simp [BitStreamReader.isEndOfStream]
  omega

theorem notEnd (r : BitStreamReader) (h : r.numBitsRead < r.sizeInBits) :
    ¬ (r.isEndOfStream = true) := by
  simp [BitStreamReader.isEndOfStream]
  omega

/-- Reading one emission: the reader yields the emitted code and advances by
    exactly its width. -/
theorem readEmission (r : BitStreamReader) (c : Int) (w : Nat)
    (hwfr : WFr r) (hc0 : 0 ≤ c)
    (hroom : r.numBitsRead + w ≤ r.sizeInBits)
    (henc : valFromBits r.stream r.numBitsRead w = c.toNat)
    (hw64 : w ≤ 64) :
    Int.ofNat (r.readBitsU64 w).1 = c ∧
    WFr (r.readBitsU64 w).2 ∧
    (r.readBitsU64 w).2.stream = r.stream ∧
    (r.readBitsU64 w).2.sizeInBits = r.sizeInBits ∧
    (r.readBitsU64 w).2.numBitsRead = r.numBitsRead + w := by
  obtain ⟨hval, hstream, hbytes, hbits, hnbr, hwfr'⟩ :=
    BitStreamReader.readBitsGo_spec w 0 0 r hwfr (by norm_num) (by omega)
  have hmin : min w (r.sizeInBits - r.numBitsRead) = w := by omega
  rw [hmin] at hval hnbr
  refine ⟨?_, hwfr', hstream, hbits, hnbr⟩
  show Int.ofNat (BitStreamReader.readBitsGo w 0 0 r).1 = c
  rw [hval, henc]
  simp only [Nat.pow_zero, Nat.one_mul, Nat.zero_add]
  rw [Int.ofNat_eq_coe]
  exact Int.toNat_of_nonneg hc0

theorem widthSum_cons (e : Int × Nat) (l : List (Int × Nat)) :
    widthSum (e :: l) = e.2 + widthSum l := by
  simp [widthSum]

theorem length_le_widthSum (l : List (Int × Nat)) (h : ∀ e ∈ l, 1 ≤ e.2) :
    l.length ≤ widthSum l := by
  induction l with
  | nil => simp [widthSum]
  | cons e rest ih =>
    rw [widthSum_cons]
    have h1 := h e (List.mem_cons_self _ _)
    have h2 := ih (fun x hx => h x (List.mem_cons_of_mem _ hx))
    simp only [List.length_cons]
    omega

theorem encEmits_wf :
    ∀ (input : List Nat) (codeE : Int) (w : Nat) (dE : Dictionary),
      (∀ b ∈ input, b < 256) →
      DictWF dE → 9 ≤ w → w ≤ 12 → dE.size ≤ 2 ^ w →
      (codeE = Nil ∨ (0 ≤ codeE ∧ codeE < (dE.size : Int))) →
      ∀ e ∈ emsOf input codeE w dE,
        0 ≤ e.1 ∧ e.1.toNat < 2 ^ e.2.1 ∧ 9 ≤ e.2.1 := by
  intro input
  induction input with
  | nil =>
    intro codeE w dE hb hwf hw9 hw12 hsz hcode e he
    rw [emsOf_nil, encResidual] at he
    by_cases hc : codeE ≠ Nil
    · rw [if_pos hc] at he
      simp only [List.mem_singleton] at he
      subst he
      rcases hcode with hnil | ⟨h0, hlt⟩
      · exact absurd hnil hc
      · have hsz4096 : dE.size ≤ 4096 := by
          have := hwf.2.1
          simpa [MaxDictEntries, MaxDictBits] using this
        refine ⟨h0, ?_, hw9⟩
        show codeE.toNat < 2 ^ w
        omega
    · rw [if_neg hc] at he
      simp at he
  | cons v rest ih =>
    intro codeE w dE hb hwf hw9 hw12 hsz hcode e he
    have hv : v < 256 := hb v (List.mem_cons_self _ _)
    have hb' : ∀ b ∈ rest, b < 256 := fun b hbm => hb b (List.mem_cons_of_mem _ hbm)
    by_cases hidx : dE.findIndex codeE (Int.ofNat v) ≠ Nil
    · rw [emsOf_match _ _ _ _ _ hidx] at he
      have hcode' : dE.findIndex codeE (Int.ofNat v) = Nil ∨
          (0 ≤ dE.findIndex codeE (Int.ofNat v) ∧
           dE.findIndex codeE (Int.ofNat v) < (dE.size : Int)) := by
        rcases hcode with hnil | ⟨h0, _⟩
        · right
          subst hnil
          rw [findIndex_nil_code]
          constructor
          · rw [Int.ofNat_eq_coe]
            exact_mod_cast Nat.zero_le v
          · have h256 : (256 : Nat) ≤ dE.size := by
              have := hwf.1
              simpa [FirstCode, StartBits] using this
            rw [Int.ofNat_eq_coe]
            exact_mod_cast (by omega : v < dE.size)
        · right
          exact ⟨(findIndex_found dE codeE (Int.ofNat v) (by rw [Nil]; omega)
              hidx).1,
            (findIndex_found dE codeE (Int.ofNat v) (by rw [Nil]; omega) hidx).2.1⟩
      exact ih _ w dE hb' hwf hw9 hw12 hsz hcode' e he
    · have hcE : codeE ≠ Nil := by
        intro hnil
        subst hnil
        rw [findIndex_nil_code] at hidx
        apply hidx
        rw [Nil]
        have : (0 : Int) ≤ Int.ofNat v := by
          rw [Int.ofNat_eq_coe]
          exact_mod_cast Nat.zero_le v
        omega
      have hcb : 0 ≤ codeE ∧ codeE < (dE.size : Int) := by
        rcases hcode with hnil | h
        · exact absurd hnil hcE
        · exact h
      rw [emsOf_miss _ _ _ _ _ hidx] at he
      rcases List.mem_cons.mp he with he | he
      · subst he
        have hsz4096 : dE.size ≤ 4096 := by
          have := hwf.2.1
          simpa [MaxDictEntries, MaxDictBits] using this
        refine ⟨hcb.1, ?_, hw9⟩
        show codeE.toNat < 2 ^ w
        have := hcb.2
        omega
      · obtain ⟨hwf', hw9', hw12', hsz'⟩ :=
          encMiss_preserve dE codeE w v hwf hcb.1 hcb.2 hv hw9 hw12 hsz
        have hcode' : (Int.ofNat v : Int) = Nil ∨
            (0 ≤ (Int.ofNat v : Int) ∧
             (Int.ofNat v : Int) <
               (((if (dE.flush w).1 then (dE.flush w).2.2
                  else (dE.flush w).2.2.add codeE (Int.ofNat v)).size : Nat) : Int)) := by
          right
          constructor
          · rw [Int.ofNat_eq_coe]
            exact_mod_cast Nat.zero_le v
          · have h256 : (256 : Nat) ≤ (if (dE.flush w).1 then (dE.flush w).2.2
                else (dE.flush w).2.2.add codeE (Int.ofNat v)).size := by
              have := hwf'.1
              simpa [FirstCode, StartBits] using this
            rw [Int.ofNat_eq_coe]
            exact_mod_cast (by omega : v < (if (dE.flush w).1 then (dE.flush w).2.2
              else (dE.flush w).2.2.add codeE (Int.ofNat v)).size)
        exact ih _ _ _ hb' hwf' hw9' hw12' hsz' hcode' e he

theorem emCW_cons (e : Int × Nat × Nat) (l : List (Int × Nat × Nat)) :
    emCW (e :: l) = (e.1, e.2.1) :: emCW l := rfl

theorem emSW_cons (e : Int × Nat × Nat) (l : List (Int × Nat × Nat)) :
    emSW (e :: l) = (e.2.2, e.2.1) :: emSW l := rfl

theorem encodesFrom_cons (s : Nat → Nat) (p : Nat) (e : Int × Nat)
    (l : List (Int × Nat)) :
    EncodesFrom s p (e :: l) ↔
      (valFromBits s p e.2 = e.1.toNat ∧ EncodesFrom s (p + e.2) l) := Iff.rfl

theorem emCW_cons3 (c : Int) (wd sz : Nat) (l : List (Int × Nat × Nat)) :
    emCW ((c, wd, sz) :: l) = (c, wd) :: emCW l := rfl

theorem emSW_cons3 (c : Int) (wd sz : Nat) (l : List (Int × Nat × Nat)) :
    emSW ((c, wd, sz) :: l) = (sz, wd) :: emSW l := rfl

theorem widthSum_cons2 (c : Int) (wd : Nat) (l : List (Int × Nat)) :
    widthSum ((c, wd) :: l) = wd + widthSum l := by
  simp [widthSum]

theorem encodesFrom_cons2 (s : Nat → Nat) (p : Nat) (c : Int) (wd : Nat)
    (l : List (Int × Nat)) :
    EncodesFrom s p ((c, wd) :: l) ↔
      (valFromBits s p wd = c.toNat ∧ EncodesFrom s (p + wd) l) := Iff.rfl

theorem flush_congr (d1 d2 : Dictionary) (w : Nat) (h : d1.size = d2.size) :
    (d1.flush w).1 = (d2.flush w).1 ∧
    (d1.flush w).2.1 = (d2.flush w).2.1 := by
  rw [Dictionary.flush, Dictionary.flush, h]
  by_cases hs : d2.size = 2 ^ w
  · rw [if_pos hs, if_pos hs]
    by_cases hw' : w + 1 > MaxDictBits
    · rw [if_pos hw', if_pos hw']
      exact ⟨rfl, rfl⟩
    · rw [if_neg hw', if_neg hw']
      exact ⟨rfl, rfl⟩
  · rw [if_neg hs, if_neg hs]
    exact ⟨rfl, rfl⟩

theorem flush_reset_dict (d : Dictionary) (w : Nat) (h : (d.flush w).1 = true) :
    (d.flush w).2.2 = { d with size := FirstCode } ∧ (d.flush w).2.1 = StartBits := by
  rcases flush_spec d w with ⟨_, _, hfl⟩ | ⟨_, _, hfl⟩ | ⟨_, hfl⟩ <;>
    rw [hfl] at h ⊢ <;> first | exact ⟨rfl, rfl⟩ | simp at h

theorem flush_noreset_dict (d : Dictionary) (w : Nat) (h : (d.flush w).1 = false) :
    (d.flush w).2.2 = d := by
  rcases flush_spec d w with ⟨_, _, hfl⟩ | ⟨_, _, hfl⟩ | ⟨_, hfl⟩ <;>
    rw [hfl] at h ⊢ <;> first | rfl | simp at h

/-- A dictionary obeying the width bound that does not reset on flush is not
    full. -/
theorem noreset_not_full (d : Dictionary) (w : Nat) (hw12 : w ≤ 12)
    (hsz : d.size ≤ 2 ^ w) (h : (d.flush w).1 = false) :
    d.size ≠ MaxDictEntries := by
  rcases flush_spec d w with ⟨_, _, hfl⟩ | ⟨hs, hwb, hfl⟩ | ⟨hs, hfl⟩
  · rw [hfl] at h
    exact absurd h (by simp)
  · rw [hs]
    simp only [MaxDictBits] at hwb
    have h1 : (2 : Nat) ^ w < 2 ^ 12 :=
      Nat.pow_lt_pow_right (by norm_num) (by omega)
    simp only [MaxDictEntries, MaxDictBits]
    omega
  · intro hfull
    apply hs
    have h12 : (2 : Nat) ^ w ≤ 2 ^ 12 := Nat.pow_le_pow_right (by norm_num) hw12
    simp only [MaxDictEntries, MaxDictBits] at hfull
    norm_num at h12
    omega

/-- The coupled encoder/decoder simulation: starting from a synchronised
    state, the instrumented decode loop consumes exactly the encoder's
    remaining emissions, reproduces the input, and records the encoder's
    (size, width) trajectory. -/
theorem lzw_sim :
    ∀ (rest : List Nat) (fuel : Nat) (codeE : Int) (w : Nat) (dE dD : Dictionary)
      (prevD fbD : Int) (outD done S : List Nat) (acc : List (Nat × Nat))
      (r : BitStreamReader),
      done ++ rest = S →
      (∀ b ∈ rest, b < 256) →
      SyncInv codeE w dE dD prevD outD done →
      WFr r →
      r.numBitsRead + widthSum (emCW (emsOf rest codeE w dE)) = r.sizeInBits →
      EncodesFrom r.stream r.numBitsRead (emCW (emsOf rest codeE w dE)) →
      (emsOf rest codeE w dE).length < fuel →
      lzwDecodeLoopTr fuel r dD prevD fbD w outD S.length acc =
        (S, acc ++ emSW (emsOf rest codeE w dE)) := by
  intro rest
  induction rest with
  | nil =>
    intro fuel codeE w dE dD prevD fbD outD done S acc r hdone hrest hinv hwfr hbits
      henc hfuel
    have hdS : done = S := by simpa using hdone
    rcases hinv with ⟨hcN, hpN, hdE, hdD, hw, hout, hdn⟩ | hroot | hmid
    · -- Init: nothing was emitted at all
      have hres : emsOf [] codeE w dE = [] := by
        rw [emsOf_nil, encResidual, if_neg (by simp [hcN])]
      rw [hres] at hbits hfuel ⊢
      simp only [emCW, List.map_nil, widthSum, List.sum_nil] at hbits
      obtain ⟨f1, rfl⟩ : ∃ k, fuel = k + 1 := ⟨fuel - 1, by omega⟩
      rw [lzwDecodeLoopTr_succ, if_pos (atEnd r (by omega))]
      have hS0 : S = [] := by rw [← hdS, hdn]
      rw [hout, hS0]
      simp [emSW]
    · -- Root: a single residual root code remains
      obtain ⟨hc0, hc256, hpN, hszE, hszD, hwfE, hwfD, hw, houtD⟩ := hroot
      subst hpN
      have hcNil : codeE ≠ Nil := by rw [Nil]; omega
      have hres : emsOf [] codeE w dE = [(codeE, w, dE.size)] := by
        rw [emsOf_nil, encResidual, if_pos hcNil]
      rw [hres] at hbits henc hfuel ⊢
      rw [emCW_cons3, widthSum_cons2] at hbits
      rw [emCW_cons3] at henc
      simp only [emCW, List.map_nil, widthSum, List.sum_nil] at hbits
      obtain ⟨henc1, -⟩ := (encodesFrom_cons2 _ _ _ _ _).mp henc
      have hw64 : w ≤ 64 := by rw [hw]; norm_num [StartBits]
      have hw1 : 1 ≤ w := by rw [hw]; norm_num [StartBits]
      obtain ⟨hvread, hwfr2, hstr2, hsib2, hnbr2⟩ :=
        readEmission r codeE w hwfr hc0 (by omega) henc1 hw64
      obtain ⟨f1, rfl⟩ : ∃ k, fuel = k + 1 := ⟨fuel - 1, by omega⟩
      rw [lzwDecodeLoopTr_succ, if_neg (notEnd r (by omega))]
      rw [hvread]
      have hlenout : outD.length < S.length := by
        have h1 : done.length ≤ S.length := by rw [← hdone]; simp
        have h2 : done.length = outD.length + 1 := by rw [← houtD]; simp
        omega
      rw [rootStep dD codeE w outD S.length hc0 hc256 hlenout]
      show lzwDecodeLoopTr f1 (r.readBitsU64 w).2 dD codeE codeE w
        (outD ++ [codeE.toNat]) S.length (acc ++ [(dD.size, w)]) =
        (S, acc ++ emSW [(codeE, w, dE.size)])
      simp only [List.length_cons, List.length_nil] at hfuel
      obtain ⟨f2, rfl⟩ : ∃ k, f1 = k + 1 := ⟨f1 - 1, by omega⟩
      rw [lzwDecodeLoopTr_succ, if_pos (atEnd _ (by rw [hsib2, hnbr2]; omega))]
      have hdd : dD.size = dE.size := by rw [hszD, hszE]
      rw [houtD, hdS, hdd]
      simp [emSW]
    · -- Mid: a single residual phrase code remains
      obtain ⟨hc0, hcs, hp0, hps, hwfE, hwfD, hszEq, hag, hpend, hw9, hw12, hsz2w,
        houtD⟩ := hmid
      have hcNil : codeE ≠ Nil := by rw [Nil]; omega
      have hres : emsOf [] codeE w dE = [(codeE, w, dE.size)] := by
        rw [emsOf_nil, encResidual, if_pos hcNil]
      rw [hres] at hbits henc hfuel ⊢
      rw [emCW_cons3, widthSum_cons2] at hbits
      rw [emCW_cons3] at henc
      simp only [emCW, List.map_nil, widthSum, List.sum_nil] at hbits
      obtain ⟨henc1, -⟩ := (encodesFrom_cons2 _ _ _ _ _).mp henc
      obtain ⟨hvread, hwfr2, hstr2, hsib2, hnbr2⟩ :=
        readEmission r codeE w hwfr hc0 (by omega) henc1 (by omega)
      obtain ⟨f1, rfl⟩ : ∃ k, fuel = k + 1 := ⟨fuel - 1, by omega⟩
      rw [lzwDecodeLoopTr_succ, if_neg (notEnd r (by omega))]
      rw [hvread]
      have hcap : outD.length + (phraseN dE codeE).length ≤ S.length := by
        have h1 : done.length ≤ S.length := by rw [← hdone]; simp
        have h2 : outD.length + (phraseN dE codeE).length = done.length := by
          rw [← houtD]; simp
        omega
      obtain ⟨hstep, hAsz, hAag, hAwf⟩ := midStep dE dD codeE prevD w outD S.length
        hwfE hwfD hc0 hcs hp0 hps hszEq hag hpend hcap
      rw [hstep]
      show lzwDecodeLoopTr f1 (r.readBitsU64 w).2
        ((dD.add prevD ((phrase dE codeE).headD 0)).flush w).2.2
        (if ((dD.add prevD ((phrase dE codeE).headD 0)).flush w).1 then Nil
          else codeE)
        ((phrase dE codeE).headD 0)
        ((dD.add prevD ((phrase dE codeE).headD 0)).flush w).2.1
        (outD ++ phraseN dE codeE) S.length (acc ++ [(dE.size, w)]) =
        (S, acc ++ emSW [(codeE, w, dE.size)])
      simp only [List.length_cons, List.length_nil] at hfuel
      obtain ⟨f2, rfl⟩ : ∃ k, f1 = k + 1 := ⟨f1 - 1, by omega⟩
      rw [lzwDecodeLoopTr_succ, if_pos (atEnd _ (by rw [hsib2, hnbr2]; omega))]
      rw [houtD, hdS]
      simp [emSW]
  | cons v rest2 ih =>
    intro fuel codeE w dE dD prevD fbD outD done S acc r hdone hrest hinv hwfr hbits
      henc hfuel
    have hv256 : v < 256 := hrest v (List.mem_cons_self _ _)
    have hrest2 : ∀ b ∈ rest2, b < 256 :=
      fun b hb => hrest b (List.mem_cons_of_mem _ hb)
    have hv0 : (0 : Int) ≤ Int.ofNat v := by
      rw [Int.ofNat_eq_coe]
      exact_mod_cast Nat.zero_le v
    have hvNil : (Int.ofNat v : Int) ≠ Nil := by rw [Nil]; omega
    have hvlt : (Int.ofNat v : Int) < 256 := by
      rw [Int.ofNat_eq_coe]
      exact_mod_cast hv256
    have hvtoNat : (Int.ofNat v).toNat = v := by
      rw [Int.ofNat_eq_coe, Int.toNat_ofNat]
    rcases hinv with ⟨hcN, hpN, hdE, hdD, hw, hout, hdn⟩ | hroot | hmid
    · -- Init: the first byte matches its root entry
      subst hcN hpN hdE hdD hw hout hdn
      have hidx : Dictionary.init.findIndex Nil (Int.ofNat v) ≠ Nil := by
        rw [findIndex_nil_code]
        exact hvNil
      rw [emsOf_match v rest2 Nil StartBits Dictionary.init hidx] at hbits henc hfuel ⊢
      rw [findIndex_nil_code] at hbits henc hfuel ⊢
      have hdone2 : [v] ++ rest2 = S := by simpa using hdone
      have hszI : Dictionary.init.size = 256 := by
        show FirstCode = 256
        norm_num [FirstCode, StartBits]
      refine ih fuel (Int.ofNat v) StartBits Dictionary.init Dictionary.init Nil fbD
        [] [v] S acc r hdone2 hrest2 ?_ hwfr hbits henc hfuel
      exact Or.inr (Or.inl ⟨hv0, hvlt, rfl, hszI, hszI, dictWF_init, dictWF_init,
        rfl, by simp [hvtoNat]⟩)
    · -- Root: the next byte always misses against a fresh dictionary
      obtain ⟨hc0, hc256, hpN, hszE, hszD, hwfE, hwfD, hw, houtD⟩ := hroot
      subst hpN
      have hcNil : codeE ≠ Nil := by rw [Nil]; omega
      have hidxNil : dE.findIndex codeE (Int.ofNat v) = Nil :=
        findIndex_fresh dE hwfE hszE codeE (Int.ofNat v) hc0
      have hidx : ¬ dE.findIndex codeE (Int.ofNat v) ≠ Nil := by
        rw [hidxNil]
        simp
      have hflE : dE.flush w = (false, w, dE) := by
        rcases flush_spec dE w with ⟨hs, _, _⟩ | ⟨hs, _, _⟩ | ⟨_, hfl⟩
        · exfalso
          rw [hszE, hw] at hs
          norm_num [StartBits] at hs
        · exfalso
          rw [hszE, hw] at hs
          norm_num [StartBits] at hs
        · exact hfl
      have hemsOf : emsOf (v :: rest2) codeE w dE =
          (codeE, w, dE.size) ::
            emsOf rest2 (Int.ofNat v) w (dE.add codeE (Int.ofNat v)) := by
        rw [emsOf_miss v rest2 codeE w dE hidx, hflE]
        rfl
      rw [hemsOf] at hbits henc hfuel ⊢
      rw [emCW_cons3, widthSum_cons2] at hbits
      rw [emCW_cons3] at henc
      obtain ⟨henc1, henc2⟩ := (encodesFrom_cons2 _ _ _ _ _).mp henc
      have hw64 : w ≤ 64 := by rw [hw]; norm_num [StartBits]
      have hw1 : 1 ≤ w := by rw [hw]; norm_num [StartBits]
      obtain ⟨hvread, hwfr2, hstr2, hsib2, hnbr2⟩ :=
        readEmission r codeE w hwfr hc0 (by omega) henc1 hw64
      obtain ⟨f1, rfl⟩ : ∃ k, fuel = k + 1 := ⟨fuel - 1, by omega⟩
      rw [lzwDecodeLoopTr_succ, if_neg (notEnd r (by omega))]
      rw [hvread]
      have hlenout : outD.length < S.length := by
        have h1 : done.length + (v :: rest2).length = S.length := by
          rw [← hdone]
          simp
        have h2 : done.length = outD.length + 1 := by rw [← houtD]; simp
        simp only [List.length_cons] at h1
        omega
      rw [rootStep dD codeE w outD S.length hc0 hc256 hlenout]
      show lzwDecodeLoopTr f1 (r.readBitsU64 w).2 dD codeE codeE w
        (outD ++ [codeE.toNat]) S.length (acc ++ [(dD.size, w)]) = _
      have hacc : ∀ l : List (Nat × Nat), acc ++ ((dE.size, w) :: l) =
          (acc ++ [(dE.size, w)]) ++ l := fun l => by simp
      conv_rhs => rw [emSW_cons3, hacc]
      have hdd : ((dD.size, w) : Nat × Nat) = (dE.size, w) := by rw [hszD, hszE]
      rw [hdd]
      have hszE4096 : dE.size ≠ MaxDictEntries := by
        rw [hszE]
        norm_num [MaxDictEntries, MaxDictBits]
      have hdone2 : (done ++ [v]) ++ rest2 = S := by
        rw [← hdone]
        simp
      have haddszE : (dE.add codeE (Int.ofNat v)).size = dE.size + 1 :=
        dict_add_size _ _ _ hszE4096
      have hwfE' : DictWF (dE.add codeE (Int.ofNat v)) :=
        dictWF_add hwfE hc0 (by rw [hszE]; exact_mod_cast hc256) hv0 hvlt
      refine ih f1 (Int.ofNat v) w (dE.add codeE (Int.ofNat v)) dD codeE codeE
        (outD ++ [codeE.toNat]) (done ++ [v]) S (acc ++ [(dE.size, w)])
        (r.readBitsU64 w).2 hdone2 hrest2 ?_ hwfr2 ?_ ?_ ?_
      · -- new Mid invariant
        refine Or.inr (Or.inr ⟨hv0, ?_, hc0, ?_, hwfE', hwfD, ?_, ?_, ?_, ?_, ?_,
          ?_, ?_⟩)
        · rw [haddszE, hszE, Int.ofNat_eq_coe]
          exact_mod_cast (by omega : v < 256 + 1)
        · rw [hszD]
          exact_mod_cast hc256
        · rw [haddszE, hszE, hszD]
        · intro i hi
          rw [hszD] at hi
          rw [dict_add_entries_lt _ _ _ hszE4096 i (by omega)]
          rw [hwfE.2.2.1 i (by simp only [FirstCode, StartBits]; omega),
            hwfD.2.2.1 i (by simp only [FirstCode, StartBits]; omega)]
        · have hDE : dD.size = dE.size := by rw [hszD, hszE]
          rw [hDE, dict_add_entries_eq _ _ _ hszE4096]
          have hphr : phrase (dE.add codeE (Int.ofNat v)) (Int.ofNat v) =
              [Int.ofNat v] :=
            phrase_root _ hwfE' _ hv0 hvlt
          rw [hphr]
          rfl
        · rw [hw]
          norm_num [StartBits]
        · rw [hw]
          norm_num [StartBits]
        · rw [haddszE, hszE, hw]
          norm_num [StartBits]
        · have hphr : phrase (dE.add codeE (Int.ofNat v)) (Int.ofNat v) =
              [Int.ofNat v] :=
            phrase_root _ hwfE' _ hv0 hvlt
          rw [phraseN, hphr]
          simp only [List.map_cons, List.map_nil, hvtoNat]
          rw [houtD]
      · rw [hnbr2, hsib2]
        omega
      · rw [hstr2, hnbr2]
        exact henc2
      · simp only [List.length_cons] at hfuel
        omega
    · -- Mid
      obtain ⟨hc0, hcs, hp0, hps, hwfE, hwfD, hszEq, hag, hpend, hw9, hw12, hsz2w,
        houtD⟩ := hmid
      have hcNil : codeE ≠ Nil := by rw [Nil]; omega
      by_cases hidx : dE.findIndex codeE (Int.ofNat v) ≠ Nil
      · -- match: the encoder extends its phrase; the decoder does nothing
        rw [emsOf_match v rest2 codeE w dE hidx] at hbits henc hfuel ⊢
        obtain ⟨hi0, his, hient⟩ := findIndex_found dE codeE (Int.ofNat v) hcNil hidx
        have hjlt : (dE.findIndex codeE (Int.ofNat v)).toNat < dE.size := by omega
        have hjf : FirstCode ≤ (dE.findIndex codeE (Int.ofNat v)).toNat := by
          by_contra hlt
          have hroot := hwfE.2.2.1 (dE.findIndex codeE (Int.ofNat v)).toNat
            (by omega)
          rw [hroot] at hient
          have hcc := congrArg Entry.code hient
          simp only [] at hcc
          rw [Nil] at hcc
          omega
        have hchild := phrase_child dE hwfE (dE.findIndex codeE (Int.ofNat v)).toNat
          hjf hjlt
        rw [hient] at hchild
        simp only [] at hchild
        have hofj : Int.ofNat (dE.findIndex codeE (Int.ofNat v)).toNat =
            dE.findIndex codeE (Int.ofNat v) := by
          rw [Int.ofNat_eq_coe]
          exact Int.toNat_of_nonneg hi0
        rw [hofj] at hchild
        have hdone2 : (done ++ [v]) ++ rest2 = S := by
          rw [← hdone]
          simp
        refine ih fuel (dE.findIndex codeE (Int.ofNat v)) w dE dD prevD fbD outD
          (done ++ [v]) S acc r hdone2 hrest2 ?_ hwfr hbits henc hfuel
        refine Or.inr (Or.inr ⟨hi0, his, hp0, hps, hwfE, hwfD, hszEq, hag, ?_, hw9,
          hw12, hsz2w, ?_⟩)
        · rw [hpend]
          have hhead : (phrase dE (dE.findIndex codeE (Int.ofNat v))).headD 0 =
              (phrase dE codeE).headD 0 := by
            rw [hchild, headD_append _ (phrase_ne_nil _ _) 0]
          rw [hhead]
        · rw [phraseN, hchild, List.map_append]
          simp only [List.map_cons, List.map_nil, hvtoNat]
          rw [← List.append_assoc, ← phraseN, houtD]
      · -- miss: one emission is consumed by the decoder
        have hemsOf := emsOf_miss v rest2 codeE w dE hidx
        rw [hemsOf] at hbits henc hfuel ⊢
        rw [emCW_cons3, widthSum_cons2] at hbits
        rw [emCW_cons3] at henc
        obtain ⟨henc1, henc2⟩ := (encodesFrom_cons2 _ _ _ _ _).mp henc
        obtain ⟨hvread, hwfr2, hstr2, hsib2, hnbr2⟩ :=
          readEmission r codeE w hwfr hc0 (by omega) henc1 (by omega)
        obtain ⟨f1, rfl⟩ : ∃ k, fuel = k + 1 := ⟨fuel - 1, by omega⟩
        rw [lzwDecodeLoopTr_succ, if_neg (notEnd r (by omega))]
        rw [hvread]
        have hcap : outD.length + (phraseN dE codeE).length ≤ S.length := by
          have h1 : done.length ≤ S.length := by
            rw [← hdone]
            simp
          have h2 : outD.length + (phraseN dE codeE).length = done.length := by
            rw [← houtD]
            simp
          omega
        obtain ⟨hstep, hAsz, hAag, hAwf⟩ := midStep dE dD codeE prevD w outD
          S.length hwfE hwfD hc0 hcs hp0 hps hszEq hag hpend hcap
        rw [hstep]
        show lzwDecodeLoopTr f1 (r.readBitsU64 w).2
          ((dD.add prevD ((phrase dE codeE).headD 0)).flush w).2.2
          (if ((dD.add prevD ((phrase dE codeE).headD 0)).flush w).1 then Nil
            else codeE)
          ((phrase dE codeE).headD 0)
          ((dD.add prevD ((phrase dE codeE).headD 0)).flush w).2.1
          (outD ++ phraseN dE codeE) S.length (acc ++ [(dE.size, w)]) = _
        obtain ⟨hwfE', hw9', hw12', hsz'⟩ :=
          encMiss_preserve dE codeE w v hwfE hc0 hcs hv256 hw9 hw12 hsz2w
        have hflc := flush_congr (dD.add prevD ((phrase dE codeE).headD 0)) dE w hAsz
        have hacc : ∀ l : List (Nat × Nat), acc ++ ((dE.size, w) :: l) =
            (acc ++ [(dE.size, w)]) ++ l := fun l => by simp
        conv_rhs => rw [emSW_cons3, hacc]
        rw [hflc.2]
        have hdone2 : (done ++ [v]) ++ rest2 = S := by
          rw [← hdone]
          simp
        have hfuel2 : (emsOf rest2 (Int.ofNat v) (dE.flush w).2.1
            (if (dE.flush w).1 then (dE.flush w).2.2
              else (dE.flush w).2.2.add codeE (Int.ofNat v))).length < f1 := by
          simp only [List.length_cons] at hfuel
          omega
        by_cases hfl1 : (dE.flush w).1 = true
        · -- epoch reset on both sides
          have hfl1A : ((dD.add prevD ((phrase dE codeE).headD 0)).flush w).1 =
              true := by
            rw [hflc.1]
            exact hfl1
          obtain ⟨hresetA, hwA⟩ := flush_reset_dict _ w hfl1A
          obtain ⟨hresetE, hwE⟩ := flush_reset_dict dE w hfl1
          have hdE2 : (if (dE.flush w).1 then (dE.flush w).2.2
              else (dE.flush w).2.2.add codeE (Int.ofNat v)) =
              { dE with size := FirstCode } := by
            rw [if_pos hfl1, hresetE]
          rw [hdE2, hwE] at hbits henc2 hfuel2 ⊢
          rw [if_pos hfl1A, hresetA]
          refine ih f1 (Int.ofNat v) StartBits { dE with size := FirstCode }
            { dD.add prevD ((phrase dE codeE).headD 0) with size := FirstCode }
            Nil ((phrase dE codeE).headD 0) (outD ++ phraseN dE codeE)
            (done ++ [v]) S (acc ++ [(dE.size, w)]) (r.readBitsU64 w).2
            hdone2 hrest2 ?_ hwfr2 ?_ ?_ hfuel2
          · refine Or.inr (Or.inl ⟨hv0, hvlt, rfl, ?_, ?_, dictWF_reset hwfE,
              dictWF_reset hAwf, rfl, ?_⟩)
            · show FirstCode = 256
              norm_num [FirstCode, StartBits]
            · show FirstCode = 256
              norm_num [FirstCode, StartBits]
            · rw [hvtoNat, houtD]
          · rw [hnbr2, hsib2]
            omega
          · rw [hstr2, hnbr2]
            exact henc2
        · -- no reset on either side
          have hfl1E : (dE.flush w).1 = false := by
            cases h : (dE.flush w).1
            · rfl
            · exact absurd h hfl1
          have hfl1A : ((dD.add prevD ((phrase dE codeE).headD 0)).flush w).1 =
              false := by
            rw [hflc.1]
            exact hfl1E
          have hnrE := flush_noreset_dict dE w hfl1E
          have hnrA := flush_noreset_dict _ w hfl1A
          have hdE2 : (if (dE.flush w).1 then (dE.flush w).2.2
              else (dE.flush w).2.2.add codeE (Int.ofNat v)) =
              dE.add codeE (Int.ofNat v) := by
            rw [if_neg (by rw [hfl1E]; simp), hnrE]
          rw [hdE2] at hbits henc2 hfuel2 ⊢
          rw [if_neg (by rw [hfl1A]; simp), hnrA]
          rw [hdE2] at hwfE' hsz'
          have hnotfull : dE.size ≠ MaxDictEntries :=
            noreset_not_full dE w hw12 hsz2w hfl1E
          have haddszE : (dE.add codeE (Int.ofNat v)).size = dE.size + 1 :=
            dict_add_size _ _ _ hnotfull
          refine ih f1 (Int.ofNat v) ((dE.flush w).2.1) (dE.add codeE (Int.ofNat v))
            (dD.add prevD ((phrase dE codeE).headD 0)) codeE
            ((phrase dE codeE).headD 0) (outD ++ phraseN dE codeE) (done ++ [v]) S
            (acc ++ [(dE.size, w)]) (r.readBitsU64 w).2 hdone2 hrest2 ?_ hwfr2 ?_ ?_
            hfuel2
          · refine Or.inr (Or.inr ⟨hv0, ?_, hc0, ?_, hwfE', hAwf, ?_, ?_, ?_, hw9',
              hw12', hsz', ?_⟩)
            · rw [haddszE, Int.ofNat_eq_coe]
              have h256 : 256 ≤ dE.size := by
                have := hwfE.1
                simpa [FirstCode, StartBits] using this
              exact_mod_cast (by omega : v < dE.size + 1)
            · rw [hAsz]
              exact hcs
            · rw [haddszE, hAsz]
            · intro i hi
              rw [hAsz] at hi
              rw [dict_add_entries_lt _ _ _ hnotfull i (by omega), hAag i hi]
            · rw [hAsz, dict_add_entries_eq _ _ _ hnotfull]
              have hphr : phrase (dE.add codeE (Int.ofNat v)) (Int.ofNat v) =
                  [Int.ofNat v] :=
                phrase_root _ hwfE' _ hv0 hvlt
              rw [hphr]
              rfl
            · have hphr : phrase (dE.add codeE (Int.ofNat v)) (Int.ofNat v) =
                  [Int.ofNat v] :=
                phrase_root _ hwfE' _ hv0 hvlt
              have hphrN : phraseN (dE.add codeE (Int.ofNat v)) (Int.ofNat v) =
                  [v] := by
                rw [phraseN, hphr]
                simp only [List.map_cons, List.map_nil, hvtoNat]
              rw [hphrN, houtD]
          · rw [hnbr2, hsib2]
            omega
          · rw [hstr2, hnbr2]
            exact henc2

theorem lzwDecodeLoopTr_fst :
    ∀ (fuel : Nat) (r : BitStreamReader) (d : Dictionary) (prev fb : Int) (w : Nat)
      (out : List Nat) (cap : Nat) (acc : List (Nat × Nat)),
      (lzwDecodeLoopTr fuel r d prev fb w out cap acc).1 =
        lzwDecodeLoop fuel r d prev fb w out cap := by
  intro fuel
  induction fuel with
  | zero =>
    intro r d prev fb w out cap acc
    rfl
  | succ fuel ih =>
    intro r d prev fb w out cap acc
    rw [lzwDecodeLoopTr_succ, lzwDecodeLoop_succ]
    by_cases hend : r.isEndOfStream
    · rw [if_pos hend, if_pos hend]
    · rw [if_neg hend, if_neg hend]
      rcases hs : decodeStepFull d prev w out cap (Int.ofNat (r.readBitsU64 w).1) with
        o | ⟨d', p', fb', w', out', rec⟩
      · rfl
      · exact ih (r.readBitsU64 w).2 d' p' fb' w' out' cap (acc ++ [rec])

/-- Top-level assembly of the simulation: decoding the encoder's exact
    output reproduces the input and the encoder's trajectory. -/
theorem lzw_sim_top (S : List Nat) (hS : ∀ b ∈ S, b < 256) :
    lzwDecodeTraced (lzwEncode S).1 (lzwEncode S).2.1 (lzwEncode S).2.2 S.length =
      (S, lzwEncodeTrajectory S) := by
  have hwfbounds := encEmits_wf S Nil StartBits Dictionary.init hS dictWF_init
    (by norm_num [StartBits]) (by norm_num [StartBits])
    (by show FirstCode ≤ 2 ^ StartBits; norm_num [FirstCode, StartBits])
    (Or.inl rfl)
  have hbnd : ∀ e ∈ emCW (emsOf S Nil StartBits Dictionary.init),
      e.1.toNat < 2 ^ e.2 := by
    intro e he
    rw [emCW] at he
    obtain ⟨t, ht, rfl⟩ := List.mem_map.mp he
    exact (hwfbounds t ht).2.1
  have hws : ∀ e ∈ emCW (emsOf S Nil StartBits Dictionary.init), 1 ≤ e.2 := by
    intro e he
    rw [emCW] at he
    obtain ⟨t, ht, rfl⟩ := List.mem_map.mp he
    have h9 := (hwfbounds t ht).2.2
    omega
  obtain ⟨hwfW, hnumW, hkeepW, hencW⟩ := appendEmits_spec
    (emCW (emsOf S Nil StartBits Dictionary.init)) BitStreamWriter.init
    wfw_init hbnd
  have hinit0 : BitStreamWriter.init.numBitsWritten = 0 := rfl
  rw [hinit0] at hnumW hencW
  have hsim := lzw_sim S
    ((appendEmits BitStreamWriter.init
        (emCW (emsOf S Nil StartBits Dictionary.init))).numBitsWritten + 1)
    Nil StartBits Dictionary.init Dictionary.init Nil 0 [] [] S []
    (BitStreamReader.mk0
      (appendEmits BitStreamWriter.init
        (emCW (emsOf S Nil StartBits Dictionary.init))).stream
      (appendEmits BitStreamWriter.init
        (emCW (emsOf S Nil StartBits Dictionary.init))).getByteCount
      (appendEmits BitStreamWriter.init
        (emCW (emsOf S Nil StartBits Dictionary.init))).numBitsWritten)
    (by simp) hS (Or.inl ⟨rfl, rfl, rfl, rfl, rfl, rfl, rfl⟩)
    (wfr_mk0 _ _ _)
    (by
      show 0 + widthSum (emCW (emsOf S Nil StartBits Dictionary.init)) = _
      rw [hnumW]
      rfl)
    hencW
    (by
      have hlen := length_le_widthSum _ hws
      have hlen2 : (emsOf S Nil StartBits Dictionary.init).length =
          (emCW (emsOf S Nil StartBits Dictionary.init)).length := by
        rw [emCW, List.length_map]
      omega)
  rw [lzwDecodeTraced, lzwEncode_emits]
  rw [lzwEncodeTrajectory]
  exact hsim

/-- C1: encoding any byte sequence and decoding the result with the returned
    byte count, bit count, and `expectedOutputBytes = S.length` reproduces the
    input exactly — including the empty sequence, single bytes, runs and
    arbitrary content; the only assumption is that inputs are bytes
    (`< 256`), which `uint8_t` enforces in the C++ signature. -/
theorem lzw_roundtrip (S : List Nat) (hS : ∀ b ∈ S, b < 256) :
    lzwDecode (lzwEncode S).1 (lzwEncode S).2.1 (lzwEncode S).2.2 S.length = S := by
  have htop := lzw_sim_top S hS
  have hfst := lzwDecodeLoopTr_fst ((lzwEncode S).2.2 + 1)
    (BitStreamReader.mk0 (lzwEncode S).1 (lzwEncode S).2.1 (lzwEncode S).2.2)
    Dictionary.init Nil 0 StartBits [] S.length []
  have htr : (lzwDecodeTraced (lzwEncode S).1 (lzwEncode S).2.1 (lzwEncode S).2.2
      S.length).1 = S := by
    rw [htop]
  have hloop : lzwDecode (lzwEncode S).1 (lzwEncode S).2.1 (lzwEncode S).2.2
      S.length =
      (lzwDecodeTraced (lzwEncode S).1 (lzwEncode S).2.1 (lzwEncode S).2.2
        S.length).1 := by
    rw [lzwDecodeTraced, lzwDecode]
    exact hfst.symm
  rw [hloop, htr]

theorem lzw_roundtrip_witness :
    lzwDecode (lzwEncode [1, 2, 1, 2, 1]).1 (lzwEncode [1, 2, 1, 2, 1]).2.1
      (lzwEncode [1, 2, 1, 2, 1]).2.2 5 = [1, 2, 1, 2, 1] :=
  lzw_roundtrip [1, 2, 1, 2, 1] (by decide)

/-- C2: when the decoder consumes the code stream produced by the encoder,
    the decoder's (dictionary size, code width) pair recorded at each code
    boundary (size sampled after its `add`, compensating the opposite
    `add`/`flush` order) is exactly the encoder's (size, width) trajectory
    sampled at each emission (size before its `flush`/`add`); the
    instrumented decoder also computes exactly what `lzwDecode` computes. -/
theorem lzw_trajectory_sync (S : List Nat) (hS : ∀ b ∈ S, b < 256) :
    (lzwDecodeTraced (lzwEncode S).1 (lzwEncode S).2.1 (lzwEncode S).2.2
        S.length).2 = lzwEncodeTrajectory S ∧
    (lzwDecodeTraced (lzwEncode S).1 (lzwEncode S).2.1 (lzwEncode S).2.2
        S.length).1 =
      lzwDecode (lzwEncode S).1 (lzwEncode S).2.1 (lzwEncode S).2.2 S.length := by
  constructor
  · rw [lzw_sim_top S hS]
  · rw [lzwDecodeTraced, lzwDecode]
    exact lzwDecodeLoopTr_fst _ _ _ _ _ _ _ _ _

theorem lzw_trajectory_sync_witness :
    ((lzwDecodeTraced (lzwEncode [7, 7, 7]).1 (lzwEncode [7, 7, 7]).2.1
        (lzwEncode [7, 7, 7]).2.2 3).2 = lzwEncodeTrajectory [7, 7, 7] ∧
     (lzwDecodeTraced (lzwEncode [7, 7, 7]).1 (lzwEncode [7, 7, 7]).2.1
        (lzwEncode [7, 7, 7]).2.2 3).1 =
       lzwDecode (lzwEncode [7, 7, 7]).1 (lzwEncode [7, 7, 7]).2.1
         (lzwEncode [7, 7, 7]).2.2 3) :=
  lzw_trajectory_sync [7, 7, 7] (by decide)

end tvg
